import Mathlib

/-!
# Verification of the AxiomFlow document-translation pipeline core

Shallow embedding of the algorithmic core of the AxiomFlow repository
(`app/services/text_protect.py`, `cache_utils.py`, `smart_batch_translator.py`,
`document_structure.py`, `layout_enhancement.py`) and proofs of the spec's
testable properties against it.

Conventions:
* Python `str` is modelled as `List Char` (a sequence of Unicode code points).
* Python `float` is modelled as `ℚ` (the control-flow of the embedded code
  only compares and averages latencies / coordinates, so exact rational
  arithmetic is a faithful model of the comparisons made).
* Python dicts that are used as ordered key/value sequences are modelled as
  association lists in insertion order.
* Python's stable `list.sort(key=...)` is modelled by `List.insertionSort`
  with the non-strict key comparison, which is a stable sort.
-/

set_option maxHeartbeats 1600000

abbrev Str := List Char

/-- Left brace character (written via its code point to keep sources plain). -/
def lbrace : Char := Char.ofNat 123

/-- Right brace character. -/
def rbrace : Char := Char.ofNat 125

/-! ## Smart batch translator (`app/services/smart_batch_translator.py`)

`SmartBatchTranslator` keeps rolling windows of response times (last 100)
and error flags (last 200) and re-tunes `current_batch_size` at most once
per second.  `_update_batch_size` is a pure state transition once the call
time `now` is passed explicitly; the Prometheus metric calls have no effect
on the state and are omitted. -/

/-- Mutable tuning state of `SmartBatchTranslator`
(fields set in `__init__` and mutated by `_update_batch_size`). -/
structure BatchCtl where
  adaptive_batch_size : Bool
  current_batch_size : Nat
  max_workers : Nat
  response_times : List ℚ
  error_flags : List Nat
  last_tune_ts : ℚ
deriving Repr, DecidableEq

/-- `self.max_response_times = 100`. -/
def max_response_times : Nat := 100

/-- `self.max_error_flags = 200`. -/
def max_error_flags : Nat := 200

/-- `settings.batch_target_avg_latency_s: float = 1.2` (`app/core/config.py`). -/
def batch_target_avg_latency_s : ℚ := 12 / 10

/-- `settings.batch_target_error_rate: float = 0.05` (`app/core/config.py`). -/
def batch_target_error_rate : ℚ := 5 / 100

/-- `settings.batch_max_size: int = 32` (`app/core/config.py`); since the
attribute exists, the `getattr` default `max(1, max_workers*2)` is unused. -/
def batch_max_size : Nat := 32

/-- `l.append(x)` followed by `if len(l) > cap: l.pop(0)`. -/
def pushWindow (l : List α) (x : α) (cap : Nat) : List α :=
  let l' := l ++ [x]
  if cap < l'.length then l'.tail else l'

/-- `SmartBatchTranslator._update_batch_size(response_time, is_error=...)`,
with the `time.time()` value passed as `now`. -/
def update_batch_size (st : BatchCtl) (now : ℚ) (response_time : ℚ)
    (is_error : Bool) : BatchCtl :=
  if st.adaptive_batch_size = false then st else
  let rts := pushWindow st.response_times response_time max_response_times
  let efs := pushWindow st.error_flags (if is_error then 1 else 0) max_error_flags
  if now - st.last_tune_ts < 1 then
    { st with response_times := rts, error_flags := efs }
  else
    let st1 : BatchCtl :=
      { st with response_times := rts, error_flags := efs, last_tune_ts := now }
    if 10 ≤ rts.length then
      let avg : ℚ := rts.sum / rts.length
      let err_rate : ℚ := if 20 ≤ efs.length then (efs.sum : ℚ) / efs.length else 0
      let max_size : Nat := max 1 batch_max_size
      if batch_target_error_rate < err_rate then
        { st1 with current_batch_size := max (st1.current_batch_size - 1) 1 }
      else if avg < batch_target_avg_latency_s * (7 / 10) then
        { st1 with current_batch_size := min (st1.current_batch_size + 1) max_size }
      else if batch_target_avg_latency_s * (17 / 10) < avg then
        { st1 with current_batch_size := max (st1.current_batch_size - 1) 1 }
      else st1
    else st1

/-- `TranslationResult` (`app/services/concurrent_translator.py`), restricted
to the fields produced by the retry loop; `block_id` is carried by the task. -/
structure TransResult (ε α : Type) where
  translation : Option α
  error : Option ε
  retry_count : Nat
deriving Repr, DecidableEq

/-- The retry loop body of `translate_one` inside
`SmartBatchTranslator._translate_batch_simple`:
`while retry_count <= self.max_retries: try ... except ...`.
`f k` is the outcome of the `translate_func` call made when `retry_count = k`.
The backoff sleep and metric updates do not affect the returned result. -/
def attemptLoop (f : Nat → Except ε α) (maxRetries : Nat) :
    Nat → Option ε → TransResult ε α
  | retryCount, lastErr =>
    if _h : retryCount ≤ maxRetries then
      match f retryCount with
      | .ok t => ⟨some t, none, retryCount⟩
      | .error e => attemptLoop f maxRetries (retryCount + 1) (some e)
    else
      ⟨none, lastErr, retryCount - 1⟩
termination_by retryCount _ => maxRetries + 1 - retryCount

/-- `translate_one` entry: `retry_count = 0`, `last_error = None`. -/
def translate_one (f : Nat → Except ε α) (maxRetries : Nat) : TransResult ε α :=
  attemptLoop f maxRetries 0 none

/-- A task as seen by the smart batcher's ordering logic:
its block id and `meta.block_type`. -/
structure STask where
  block_id : Nat
  block_type : Option String
deriving Repr, DecidableEq

/-- `get_block_priority`: `type_priority_map.get(block_type or "", PARAGRAPH)`. -/
def get_block_priority (bt : Option String) : Nat :=
  let s := match bt with
    | none => ""
    | some s => s
  if s = "title" then 1
  else if s = "heading" then 2
  else if s = "caption" then 3
  else if s = "paragraph" then 4
  else if s = "footnote" then 5
  else 4

/-- `prioritize_tasks`: stable sort by `(priority, created_at)`.  The
`created_at` timestamps are taken in list order from a non-decreasing clock,
so the Python sort coincides with the stable sort by priority alone. -/
def prioritize_tasks (tasks : List STask) : List STask :=
  List.insertionSort
    (fun a b => get_block_priority a.block_type ≤ get_block_priority b.block_type)
    tasks

/-- The batch-forming loop of `translate_batch_smart` (priority mode): walk
the prioritized list keeping a `current_batch` that is flushed whenever the
priority changes or `current_batch_size` is reached. Returns the flushed
batches in processing order. -/
def chunkLoop (bs : Nat) : List STask → List STask → Option Nat → List (List STask)
  | [], cur, _ => if cur.isEmpty then [] else [cur]
  | p :: rest, cur, curPrio =>
    let cp := match curPrio with
      | none => get_block_priority p.block_type
      | some q => q
    if get_block_priority p.block_type = cp ∧ cur.length < bs then
      chunkLoop bs rest (cur ++ [p]) (some cp)
    else
      (if cur.isEmpty then [] else [cur]) ++
        chunkLoop bs rest [p] (some (get_block_priority p.block_type))

/-- `task.meta.block_type or "paragraph"`. -/
def groupTypeOf (t : STask) : String :=
  match t.block_type with
  | none => "paragraph"
  | some s => if s = "" then "paragraph" else s

/-- Split a list into chunks of size `bs`
(`for i in range(0, len(g), bs): g[i:i+bs]`; a zero `bs` would raise in
Python, the `[l]` branch for it is dead code). -/
def chunksOf (bs : Nat) : List α → List (List α)
  | [] => []
  | a :: t =>
    if bs = 0 then [a :: t]
    else List.take bs (a :: t) :: chunksOf bs (List.drop bs (a :: t))
termination_by l => l.length
decreasing_by
  simp only [List.length_drop, List.length_cons]
  omega

/-- `group_order = ["title", "heading", "caption", "paragraph", "footnote"]`. -/
def group_order : List String := ["title", "heading", "caption", "paragraph", "footnote"]

/-- Result order of `translate_batch_smart`: the tasks in the order in which
their results appear in the returned list.  Within each awaited batch,
`asyncio.gather` returns results in the submission order of its coroutines,
so the returned result order is exactly the batch processing order; each
result is derived from its task (same `block_id`). -/
def translate_batch_smart_order (tasks : List STask) (usePriority useGrouping : Bool)
    (bs : Nat) : List STask :=
  if usePriority then
    (chunkLoop bs (prioritize_tasks tasks) [] none).flatten
  else if useGrouping then
    (group_order.map (fun ty =>
      (chunksOf bs (tasks.filter (fun t => groupTypeOf t = ty))).flatten)).flatten
  else
    tasks


/-! ## Document structure analyzer (`app/services/document_structure.py`)

`analyze_document_structure` collects heading candidates in document-linear
order and builds the section tree with a level-stack algorithm
(lines 166-196).  The Python code mutates `children` lists through the
stack; here the same algorithm is written zipper-style: a stack frame holds
a node under construction together with its children accumulated so far
(in reverse), and a node is attached to its parent (or to the root list)
when it is popped. -/

/-- `SectionNode` (children in document order). -/
inductive SecTree where
  | mk (id title : String) (level : Nat) (page_index : Nat)
      (children : List SecTree)

instance : Inhabited SecTree := ⟨.mk "" "" 0 0 []⟩

/-- The `children` field of a `SectionNode`. -/
def SecTree.children : SecTree → List SecTree
  | .mk _ _ _ _ c => c

/-- A heading candidate (`{"block": blk, "page_index": ..., "level": ...,
"text": ...}`) after level guessing, in document-linear order; `id` is
`blk.get("id") or f"sec_{idx}"`. -/
structure SCand where
  id : String
  title : String
  level : Nat
  page_index : Nat
deriving DecidableEq

/-- A stack entry: a `SectionNode` whose `children` list is still being
appended to (kept in reverse). -/
structure SFrame where
  id : String
  title : String
  level : Nat
  page_index : Nat
  childrenRev : List SecTree

/-- Finalize a stack frame into its `SectionNode`. -/
def closeFrame (f : SFrame) : SecTree :=
  .mk f.id f.title f.level f.page_index f.childrenRev.reverse

/-- `while stack and stack[-1].level >= level: stack.pop()` - each popped
frame becomes a finished node, attached to the frame below it (the node's
parent) or, absent one, recorded as a root (roots kept in reverse order). -/
def popGE (lvl : Nat) : List SFrame → List SecTree → List SFrame × List SecTree
  | [], roots => ([], roots)
  | f :: rest, roots =>
    if lvl ≤ f.level then
      match rest with
      | [] => popGE lvl [] (closeFrame f :: roots)
      | g :: tail =>
        popGE lvl ({ g with childrenRev := closeFrame f :: g.childrenRev } :: tail) roots
    else (f :: rest, roots)
termination_by stack _ => stack.length

/-- One iteration of the candidate loop: pop, then push the new node
(attachment to `stack[-1].children` / `sections` happens when the node is
later popped). -/
def insertCand (p : List SFrame × List SecTree) (c : SCand) :
    List SFrame × List SecTree :=
  let q := popGE c.level p.1 p.2
  (⟨c.id, c.title, c.level, c.page_index, []⟩ :: q.1, q.2)

/-- Close every frame still open once all candidates are processed. -/
def closeAll : List SFrame → List SecTree → List SecTree
  | [], roots => roots
  | f :: rest, roots =>
    match rest with
    | [] => closeAll [] (closeFrame f :: roots)
    | g :: tail =>
      closeAll ({ g with childrenRev := closeFrame f :: g.childrenRev } :: tail) roots
termination_by stack _ => stack.length

/-- The section-tree construction of `analyze_document_structure` on the
ordered heading-candidate list: returns the list of top-level
`SectionNode`s (Python's `sections`). -/
def build_sections (cands : List SCand) : List SecTree :=
  let p := cands.foldl insertCand ([], [])
  (closeAll p.1 p.2).reverse

/-- Shape of a root: (number of children, list of grandchild counts). -/
def secShape (t : SecTree) : Nat × List Nat :=
  (t.children.length, t.children.map (fun c => c.children.length))


/-! ## Reading order (`app/services/layout_enhancement.py`, lines 269-341)

`optimize_reading_order` sorts the page's blocks by
`(column_index, y0, x0)` (Python's stable `list.sort`) and then assigns
`reading_order = idx` by enumeration. -/

/-- A page block as seen by the reading-order pass: only its bbox
`(x0, y0, x1, y1)` matters (`block.get("bbox") or {}`, absent bbox gives
the sort key `(0, 0.0, 0.0)`). -/
structure RBlock where
  bbox : Option (ℚ × ℚ × ℚ × ℚ)
deriving DecidableEq, Repr

/-- Python `int(...)` on a rational: truncation toward zero
(`q.den` is positive, so `Int.tdiv` of the numerator by the denominator
is exactly the truncated quotient). -/
def pyTrunc (q : ℚ) : ℤ :=
  Int.tdiv q.num (q.den : ℤ)

/-- `get_column_index_from_bbox(x0, x1, page_width)`. -/
def get_column_index_from_bbox (x0 x1 page_width : ℚ) : ℤ :=
  let center_x := (x0 + x1) / 2
  if page_width < 400 then 0
  else if page_width < 700 then
    (if center_x < page_width / 2 then 0 else 1)
  else
    min (pyTrunc (center_x / (page_width / 3))) 2

/-- `get_sort_key(block)` inside `optimize_reading_order`. -/
def get_sort_key (b : RBlock) (page_width : ℚ) : ℤ × ℚ × ℚ :=
  match b.bbox with
  | none => (0, 0, 0)
  | some (x0, y0, x1, _) => (get_column_index_from_bbox x0 x1 page_width, y0, x0)

/-- Lexicographic order on the `(column_index, y_pos, x_pos)` sort keys
(the order Python's tuple comparison uses in `blocks.sort(key=...)`). -/
def keyTupLe (a b : ℤ × ℚ × ℚ) : Prop :=
  a.1 < b.1 ∨ (a.1 = b.1 ∧ (a.2.1 < b.2.1 ∨ (a.2.1 = b.2.1 ∧ a.2.2 ≤ b.2.2)))

instance (a b : ℤ × ℚ × ℚ) : Decidable (keyTupLe a b) :=
  inferInstanceAs (Decidable (a.1 < b.1 ∨ (a.1 = b.1 ∧
    (a.2.1 < b.2.1 ∨ (a.2.1 = b.2.1 ∧ a.2.2 ≤ b.2.2)))))

/-- `optimize_reading_order(blocks, page_width, page_height)`: the stable
sort followed by `block["reading_order"] = idx`; returns the
`(reading_order, block)` pairs in final list order. -/
def optimize_reading_order (blocks : List RBlock) (page_width : ℚ) :
    List (Nat × RBlock) :=
  (List.insertionSort
    (fun a b => keyTupLe (get_sort_key a page_width) (get_sort_key b page_width))
    blocks).enum


/-! ## Footnote detection (`app/services/layout_enhancement.py`, lines 186-266)

`enhance_footnote_detection` scores each block on six signals and flags it
as a footnote when the score reaches 6.  The five leading-marker regexes
and the citation-keyword search are implemented directly over the character
list (ASCII ranges, matching the characters the regexes name; `\s`/`\d`/`\w`
are modelled by their ASCII classes). -/

/-- Python `\s` (ASCII part): space, tab, newline, CR, vertical tab, form
feed. -/
def pySpace (c : Char) : Bool :=
  c == ' ' || c == '\t' || c == '\n' || c == '\r' || c == '\x0b' || c == '\x0c'

/-- Python `str.strip()`. -/
def pyStrip (t : Str) : Str :=
  ((t.dropWhile pySpace).reverse.dropWhile pySpace).reverse

/-- `^\s*\d+[\).\]]\s+`  ("1) ", "1. ", "1] "). -/
def fnPat1 (t : Str) : Bool :=
  let t1 := t.dropWhile pySpace
  let ds := t1.takeWhile Char.isDigit
  !ds.isEmpty &&
    (match t1.dropWhile Char.isDigit with
     | c :: c2 :: _ => (c == ')' || c == '.' || c == ']') && pySpace c2
     | _ => false)

/-- `^\s*\[\d+\]\s+`  ("[1] "). -/
def fnPat2 (t : Str) : Bool :=
  match t.dropWhile pySpace with
  | '[' :: r =>
    !(r.takeWhile Char.isDigit).isEmpty &&
      (match r.dropWhile Char.isDigit with
       | ']' :: c2 :: _ => pySpace c2
       | _ => false)
  | _ => false

/-- `^\s*[a-z]\d*[\).]\s+`  ("a) ", "a. "). -/
def fnPat3 (t : Str) : Bool :=
  match t.dropWhile pySpace with
  | c :: r =>
    c.isLower &&
      (match r.dropWhile Char.isDigit with
       | b :: c2 :: _ => (b == ')' || b == '.') && pySpace c2
       | _ => false)
  | _ => false

/-- `^\s*[*†‡§¶]+`. -/
def fnPat4 (t : Str) : Bool :=
  match t.dropWhile pySpace with
  | c :: _ => c == '*' || c == '†' || c == '‡' || c == '§' || c == '¶'
  | _ => false

/-- `^\s*\^?\d+`  ("^1", "1"). -/
def fnPat5 (t : Str) : Bool :=
  let t1 := t.dropWhile pySpace
  let t2 := match t1 with
    | c :: r => if c == '^' then r else t1
    | [] => t1
  match t2 with
  | c :: _ => c.isDigit
  | [] => false

/-- `any(re.match(pattern, text_raw) for pattern in footnote_patterns)`. -/
def starts_with_footnote_marker (t : Str) : Bool :=
  fnPat1 t || fnPat2 t || fnPat3 t || fnPat4 t || fnPat5 t

/-- Python `\w` (ASCII part). -/
def isWordChar (c : Char) : Bool := c.isAlphanum || c == '_'

/-- Word-character test at a position (out of range counts as non-word). -/
def wordAt (t : Str) (i : Nat) : Bool :=
  match t.get? i with
  | some c => isWordChar c
  | none => false

/-- Regex `\b` at position `i`. -/
def boundaryAt (t : Str) (i : Nat) : Bool :=
  if i = 0 then wordAt t 0 else wordAt t i != wordAt t (i - 1)

/-- The alternatives of `\b(see|ibid|cf\.|ref\.|cfr\.|see also|et al\.)\b`. -/
def refWords : List Str :=
  ["see".data, "ibid".data, "cf.".data, "ref.".data, "cfr.".data,
   "see also".data, "et al.".data]

/-- Case-insensitive match of word `w` at position `i` with `\b` on both
sides. -/
def matchWordAt (t : Str) (w : Str) (i : Nat) : Bool :=
  (((t.drop i).take w.length).map Char.toLower == w) &&
    boundaryAt t i && boundaryAt t (i + w.length)

/-- `re.search(r"\b(see|ibid|cf\.|ref\.|cfr\.|see also|et al\.)\b", text_raw,
re.IGNORECASE)` as a Boolean. -/
def has_reference_markers (t : Str) : Bool :=
  (List.range (t.length + 1)).any (fun i => refWords.any (fun w => matchWordAt t w i))

/-- A block as seen by `enhance_footnote_detection`: header/footer role,
current footnote flag, bbox `(x0, y0, x1, y1)`, text, and
`block.get("font_size") or 0`. -/
structure FBlock where
  is_header_footer : Option String
  is_footnote : Bool
  footnote_confidence : Option ℚ
  bbox : Option (ℚ × ℚ × ℚ × ℚ)
  text : Str
  font_size : ℚ
deriving DecidableEq, Repr

/-- The six-signal score of `enhance_footnote_detection` for one block
(blocks without a bbox are skipped by the loop and never scored). -/
def footnote_score (b : FBlock) (page_height : ℚ) : Nat :=
  match b.bbox with
  | none => 0
  | some (_, y0, _, y1) =>
    let block_height := y1 - y0
    let text_raw := pyStrip b.text
    (if (85 / 100 : ℚ) * page_height ≤ y0 then 3 else 0) +
    (if starts_with_footnote_marker text_raw = true then 4 else 0) +
    (if block_height < (25 / 1000) * page_height then 2 else 0) +
    (if 5 < text_raw.length ∧ text_raw.length < 800 then 2 else 0) +
    (if 0 < b.font_size ∧ b.font_size < 10 then 1 else 0) +
    (if has_reference_markers text_raw = true then 2 else 0)

/-- The per-block body of `enhance_footnote_detection`: skip header/footer
and already-flagged blocks and blocks without a bbox; flag as footnote iff
the score reaches 6, setting `footnote_confidence = min(score/14, 1.0)`. -/
def enhance_footnote_block (b : FBlock) (page_height : ℚ) : FBlock :=
  if b.is_header_footer.isSome then b
  else if b.is_footnote then b
  else match b.bbox with
    | none => b
    | some _ =>
      if 6 ≤ footnote_score b page_height then
        { b with is_footnote := true,
                 footnote_confidence :=
                   some (min ((footnote_score b page_height : ℚ) / 14) 1) }
      else b


/-! ## Cache utilities (`app/services/cache_utils.py`)

JSON-serializable parameter values (the inputs `normalize_params_recursively`
handles: dicts, lists and the atoms str/int/bool/None; dicts are association
lists in insertion order with unique keys). -/

/-- A JSON-serializable Python value. -/
inductive JVal where
  | jnull : JVal
  | jbool : Bool → JVal
  | jint : ℤ → JVal
  | jstr : String → JVal
  | jarr : List JVal → JVal
  | jobj : List (String × JVal) → JVal

/-- `sorted(obj.keys())` applied to the pair list: stable sort by key
(Python sorts strings lexicographically by code point, as Lean's `≤` on
`String` does). -/
def sortPairs (l : List (String × JVal)) : List (String × JVal) :=
  List.insertionSort (fun a b : String × JVal => a.1 ≤ b.1) l

/-- `normalize_params_recursively`: sort dict keys recursively, recurse into
lists, return atoms unchanged. -/
def normalize_params_recursively : JVal → JVal
  | .jnull => .jnull
  | .jbool b => .jbool b
  | .jint n => .jint n
  | .jstr s => .jstr s
  | .jarr l => .jarr (l.attach.map (fun x => normalize_params_recursively x.1))
  | .jobj l => .jobj ((sortPairs l).attach.map
      (fun x => (x.1.1, normalize_params_recursively x.1.2)))
decreasing_by
  · have := List.sizeOf_lt_of_mem x.2
    simp only [JVal.jarr.sizeOf_spec]
    omega
  · rcases x with ⟨⟨k, v⟩, hx⟩
    have hm : (k, v) ∈ l := (List.mem_insertionSort _).mp hx
    have := List.sizeOf_lt_of_mem hm
    simp only [JVal.jobj.sizeOf_spec, Prod.mk.sizeOf_spec] at *
    omega

/-- Hex digit used in `\uXXXX` escapes. -/
def hexDigit (n : Nat) : Char :=
  if n < 10 then Char.ofNat (48 + n) else Char.ofNat (87 + n)

/-- JSON escaping of one character as `json.dumps(..., ensure_ascii=False)`
produces it. -/
def escChar (c : Char) : List Char :=
  if c = '\\' then ['\\', '\\']
  else if c = '"' then ['\\', '"']
  else if c = '\n' then ['\\', 'n']
  else if c = '\t' then ['\\', 't']
  else if c = '\r' then ['\\', 'r']
  else if c = '\x08' then ['\\', 'b']
  else if c = '\x0c' then ['\\', 'f']
  else if c.toNat < 32 then
    ['\\', 'u', '0', '0', hexDigit (c.toNat / 16), hexDigit (c.toNat % 16)]
  else [c]

/-- A JSON string literal. -/
def jquote (s : String) : Str :=
  '"' :: (s.data.map escChar).flatten ++ ['"']

/-- `json.dumps(value, ensure_ascii=False, sort_keys=True,
separators=(",", ":"))` (object keys are sorted again here, matching
`sort_keys=True`). -/
def jdump : JVal → Str
  | .jnull => "null".data
  | .jbool true => "true".data
  | .jbool false => "false".data
  | .jint n => (toString n).data
  | .jstr s => jquote s
  | .jarr l => '[' :: (List.intercalate [',']
      (l.attach.map (fun x => jdump x.1))) ++ [']']
  | .jobj l => lbrace :: (List.intercalate [',']
      ((sortPairs l).attach.map
        (fun x => jquote x.1.1 ++ ':' :: jdump x.1.2))) ++ [rbrace]
decreasing_by
  · have := List.sizeOf_lt_of_mem x.2
    simp only [JVal.jarr.sizeOf_spec]
    omega
  · rcases x with ⟨⟨k, v⟩, hx⟩
    have hm : (k, v) ∈ l := (List.mem_insertionSort _).mp hx
    have := List.sizeOf_lt_of_mem hm
    simp only [JVal.jobj.sizeOf_spec, Prod.mk.sizeOf_spec] at *
    omega

/-- `serialize_params(params)`: normalize, then dump. -/
def serialize_params (params : List (String × JVal)) : Str :=
  jdump (normalize_params_recursively (.jobj params))

/-- `build_cache_key(translate_engine, translate_params, original_text)`. -/
def build_cache_key (translate_engine translate_params original_text : Str) : Str :=
  translate_engine ++ "|||".data ++ translate_params ++ "|||".data ++ original_text

/-- Equality of parameter values as nested key/value structures, allowing the
keys of any (unique-keyed) dict — at any nesting depth — to have been
inserted in a different order.  `eobjPerm` permutes one dict's pairs;
the cons rules walk both structures in parallel. -/
inductive EquivJ : JVal → JVal → Prop where
  | enull : EquivJ .jnull .jnull
  | ebool (b : Bool) : EquivJ (.jbool b) (.jbool b)
  | eint (n : ℤ) : EquivJ (.jint n) (.jint n)
  | estr (s : String) : EquivJ (.jstr s) (.jstr s)
  | earrNil : EquivJ (.jarr []) (.jarr [])
  | earrCons {x y : JVal} {xs ys : List JVal} :
      EquivJ x y → EquivJ (.jarr xs) (.jarr ys) →
      EquivJ (.jarr (x :: xs)) (.jarr (y :: ys))
  | eobjNil : EquivJ (.jobj []) (.jobj [])
  | eobjCons {k : String} {v w : JVal} {xs ys : List (String × JVal)} :
      EquivJ v w → EquivJ (.jobj xs) (.jobj ys) →
      EquivJ (.jobj ((k, v) :: xs)) (.jobj ((k, w) :: ys))
  | eobjPerm {l₁ l₂ l₃ : List (String × JVal)} :
      l₁.Perm l₂ → (l₁.map Prod.fst).Nodup →
      EquivJ (.jobj l₂) (.jobj l₃) → EquivJ (.jobj l₁) (.jobj l₃)


/-! ## Math protection (`app/services/text_protect.py`)

`protect_math` scans the text with the four `_PATTERNS` regexes
(`$$...$$`, inline `$...$` with look-around, `\(...\)`, `\[...\]`),
sorts all matches by `(start, -length)`, keeps a non-overlapping sublist
greedily, and replaces the kept spans right-to-left with `{vN}` placeholders
(`N` counting up from 1 in that right-to-left iteration order);
`unprotect_math` replaces placeholders back, longest key first.

The regex matchers are implemented positionally over the character list;
the lazy quantifiers of these particular patterns make each match
deterministic: the closing delimiter is the nearest one.  Scanning
functions carry an explicit fuel (always at least the remaining length)
so that everything evaluates by kernel reduction. -/

/-- Smallest `k' ≥ k` with `t[k'] = a` and `t[k'+1] = b` (the closing
two-character delimiter of a lazy match). -/
def findClose2 (t : Str) (a b : Char) : Nat → Nat → Option Nat
  | 0, _ => none
  | fuel + 1, k =>
    if t.get? k = some a ∧ t.get? (k + 1) = some b then some k
    else if k < t.length then findClose2 t a b fuel (k + 1) else none

/-- Smallest `j ≥` start with `t[j] = '$'`, failing on a newline or the end
of text (the content class of the inline pattern is `[^$\n]`). -/
def findDollarStop (t : Str) : Nat → Nat → Option Nat
  | 0, _ => none
  | fuel + 1, j =>
    match t.get? j with
    | none => none
    | some c =>
      if c = '$' then some j
      else if c = '\n' then none
      else findDollarStop t fuel (j + 1)

/-- Match of `\$\$[\s\S]+?\$\$` at position `i` (returns the end offset). -/
def ddMatchAt (t : Str) (i : Nat) : Option Nat :=
  if t.get? i = some '$' ∧ t.get? (i + 1) = some '$' then
    match findClose2 t '$' '$' (t.length + 1) (i + 3) with
    | some k => some (k + 2)
    | none => none
  else none

/-- The `(?<!\$)` look-behind of the inline pattern. -/
def noDollarBefore (t : Str) (i : Nat) : Bool :=
  match i with
  | 0 => true
  | Nat.succ i' =>
    match t.get? i' with
    | some c => c != '$'
    | none => true

/-- Match of `(?<!\$)\$[^$\n]+?\$(?!\$)` at position `i`. -/
def inlineMatchAt (t : Str) (i : Nat) : Option Nat :=
  if noDollarBefore t i = true ∧ t.get? i = some '$' then
    match findDollarStop t (t.length + 1) (i + 1) with
    | some j =>
      if i + 2 ≤ j ∧ ¬ t.get? (j + 1) = some '$' then some (j + 1) else none
    | none => none
  else none

/-- Match of `\\\([\s\S]+?\\\)` at position `i`. -/
def parenMatchAt (t : Str) (i : Nat) : Option Nat :=
  if t.get? i = some '\\' ∧ t.get? (i + 1) = some '(' then
    match findClose2 t '\\' ')' (t.length + 1) (i + 3) with
    | some k => some (k + 2)
    | none => none
  else none

/-- Match of `\\\[[\s\S]+?\\\]` at position `i`. -/
def brackMatchAt (t : Str) (i : Nat) : Option Nat :=
  if t.get? i = some '\\' ∧ t.get? (i + 1) = some '[' then
    match findClose2 t '\\' ']' (t.length + 1) (i + 3) with
    | some k => some (k + 2)
    | none => none
  else none

/-- `pat.finditer(text)`: scan left to right, resuming after each match. -/
def finditerAux (matchAt : Str → Nat → Option Nat) (t : Str) :
    Nat → Nat → List (Nat × Nat)
  | 0, _ => []
  | fuel + 1, i =>
    match matchAt t i with
    | some e => (i, e) :: finditerAux matchAt t fuel e
    | none => finditerAux matchAt t fuel (i + 1)

/-- All matches of one pattern. -/
def finditer (matchAt : Str → Nat → Option Nat) (t : Str) : List (Nat × Nat) :=
  finditerAux matchAt t (t.length + 1) 0

/-- The span-collection loop over the four `_PATTERNS`, in pattern order. -/
def collectSpans (t : Str) : List (Nat × Nat) :=
  finditer ddMatchAt t ++ finditer inlineMatchAt t ++
    finditer parenMatchAt t ++ finditer brackMatchAt t

/-- `spans.sort(key=lambda x: (x[0], -(x[1] - x[0])))`: the tuple order. -/
def spanKeyLe (x y : Nat × Nat) : Prop :=
  x.1 < y.1 ∨ (x.1 = y.1 ∧ y.2 - y.1 ≤ x.2 - x.1)

instance (x y : Nat × Nat) : Decidable (spanKeyLe x y) :=
  inferInstanceAs (Decidable (x.1 < y.1 ∨ (x.1 = y.1 ∧ y.2 - y.1 ≤ x.2 - x.1)))

/-- The stable sort of the collected spans. -/
def sortSpans (l : List (Nat × Nat)) : List (Nat × Nat) :=
  List.insertionSort spanKeyLe l

/-- The de-overlap filter: keep a span iff its start is not before the last
kept span's end (`last_end` starts at -1; for `Nat` starts, 0 is
equivalent). -/
def filterSpans : List (Nat × Nat) → Nat → List (Nat × Nat)
  | [], _ => []
  | (s, e) :: rest, lastEnd =>
    if s < lastEnd then filterSpans rest lastEnd
    else (s, e) :: filterSpans rest e

/-- The non-overlapping span list `filtered` of `protect_math`. -/
def protectSpans (t : Str) : List (Nat × Nat) :=
  filterSpans (sortSpans (collectSpans t)) 0

/-- Decimal digits of a positive number, most significant first. -/
def natDigitsAux : Nat → Nat → List Char
  | 0, _ => []
  | fuel + 1, n =>
    if n = 0 then []
    else natDigitsAux fuel (n / 10) ++ [Char.ofNat (48 + n % 10)]

/-- Python `str(n)` for a natural number. -/
def natDigits (n : Nat) : List Char :=
  if n = 0 then ['0'] else natDigitsAux (n + 1) n

/-- Decimal value of a digit string (inverse of `natDigits`). -/
def digitsVal (l : List Char) : Nat :=
  l.foldl (fun acc c => 10 * acc + (c.toNat - 48)) 0

/-- The placeholder `f"{{v{idx}}}"`. -/
def placeholder (idx : Nat) : Str :=
  lbrace :: 'v' :: natDigits idx ++ [rbrace]

/-- The replacement loop of `protect_math`: iterate over `reversed(filtered)`
replacing `out[:s] + placeholder + out[e:]`, numbering placeholders 1, 2, …
in that right-to-left order; mapping entries are recorded in insertion
order with the span's original text `text[s:e]`. -/
def protLoop (t : Str) : List (Nat × Nat) → Nat → Str → Str × List (Str × Str)
  | [], _, out => (out, [])
  | (s, e) :: rest, idx, out =>
    let ph := placeholder idx
    let out' := out.take s ++ ph ++ out.drop e
    let r := protLoop t rest (idx + 1) out'
    (r.1, (ph, (t.drop s).take (e - s)) :: r.2)

/-- `protect_math(text) -> (protected_text, mapping)`. -/
def protect_math (t : Str) : Str × List (Str × Str) :=
  let filtered := protectSpans t
  if filtered.isEmpty then (t, [])
  else protLoop t filtered.reverse 1 t

/-- `p` is a prefix of `t` (Boolean). -/
def startsWith : Str → Str → Bool
  | _, [] => true
  | [], _ :: _ => false
  | c :: t, p :: ps => c == p && startsWith t ps

/-- Python `str.replace(pat, rep)`: leftmost, non-overlapping, resuming
after each replacement (fuel ≥ remaining length; the empty-pattern branch
is unreachable from `unprotect_math`, whose keys are placeholders). -/
def replaceAllAux (pat rep : Str) : Nat → Str → Str
  | _, [] => []
  | 0, t => t
  | fuel + 1, c :: rest =>
    if pat.isEmpty then c :: rest
    else if startsWith (c :: rest) pat then
      rep ++ replaceAllAux pat rep fuel (List.drop pat.length (c :: rest))
    else c :: replaceAllAux pat rep fuel rest

/-- `out.replace(pat, rep)`. -/
def replaceAll (pat rep t : Str) : Str :=
  replaceAllAux pat rep t.length t

/-- `unprotect_math(text, mapping)`: replace back, iterating over the keys
sorted by length, longest first (Python's `sorted(..., key=len,
reverse=True)` is a stable descending sort). -/
def unprotect_math (t : Str) (mapping : List (Str × Str)) : Str :=
  (List.insertionSort (fun a b : Str × Str => b.1.length ≤ a.1.length) mapping).foldl
    (fun out kv => replaceAll kv.1 kv.2 out) t

/-- The protected text as an interleaving: the slices of `t` between the
(numbered, still-open) spans, with each span replaced by its placeholder. -/
def renderOpen (t : Str) (prev : Nat) : List ((Nat × Nat) × Nat) → Str
  | [] => t.drop prev
  | ((s, e), k) :: rest =>
    (t.drop prev).take (s - prev) ++ placeholder k ++ renderOpen t e rest

/-- Assign placeholder numbers to spans: in `protect_math` the LAST span (in
ascending offset order) gets number `idx`, the first gets
`idx + length - 1`. -/
def numberSpans : List (Nat × Nat) → Nat → List ((Nat × Nat) × Nat)
  | [], _ => []
  | sp :: rest, idx => (sp, idx + rest.length) :: numberSpans rest idx

/-- The mapping built by the replacement loop, iterating a reversed span
list: `{v idx} -> text[s:e]` in processing order. -/
def mapOfRev (t : Str) : List (Nat × Nat) → Nat → List (Str × Str)
  | [], _ => []
  | (s, e) :: rest, idx =>
    (placeholder idx, (t.drop s).take (e - s)) :: mapOfRev t rest (idx + 1)

/-- Spans are in ascending offset order, pairwise disjoint, each nonempty,
and start at or after `lo`. -/
def Chained : Nat → List (Nat × Nat) → Prop
  | _, [] => True
  | lo, (s, e) :: rest => lo ≤ s ∧ s < e ∧ Chained e rest

/-- End offset of the last span (or the default for an empty list). -/
def lastEnd (d : Nat) : List (Nat × Nat) → Nat
  | [] => d
  | (_, e) :: rest => lastEnd e rest

/-- `p` occurs in `t` starting at position `i`. -/
def occursAt (p t : Str) (i : Nat) : Prop :=
  startsWith (t.drop i) p = true

/-- `p` occurs somewhere in `t` (i.e. `p` is a substring of `t`). -/
def occursIn (p t : Str) : Prop :=
  ∃ i, occursAt p t i

-- ===================================================================
-- THEOREMS
-- ===================================================================

/-- Helper: the all-fail run of the retry loop. -/
theorem attemptLoop_allFail (g : Nat → Except ε α) (errs : Nat → ε)
    (hg : ∀ k, g k = .error (errs k)) (mr : Nat) :
    ∀ n j le, mr - j = n → j ≤ mr →
      attemptLoop g mr j le = ⟨none, some (errs mr), mr⟩ := by
  intro n
  induction n with
  | zero =>
    intro j le hn hj
    have hjm : j = mr := by omega
    subst hjm
    rw [attemptLoop]
    simp only [le_refl, dite_true, hg j]
    rw [attemptLoop]
    simp only [show ¬ (j + 1 ≤ j) by omega, dite_false]
    simp
  | succ n ih =>
    intro j le hn hj
    have hlt : j < mr := by omega
    rw [attemptLoop]
    simp only [hj, dite_true, hg j]
    exact ih (j + 1) (some (errs j)) (by omega) (by omega)

/-- C3.  In the smart batch translator's per-task retry loop:
(a) if the translate call raises on its first two calls and succeeds on the
third, the result carries that translation with `retry_count = 2`;
(b) if the translate call raises on every call, the result carries
`translation = None`, `error` = the last raised exception (the one from the
final attempt, at `retry_count = max_retries`), and
`retry_count = max_retries`. -/
theorem smart_batch_retry_counts (mr : Nat) (f g : Nat → Except ε α) (v : α)
    (e0 e1 : ε) (errs : Nat → ε)
    (hmr : 2 ≤ mr)
    (hf0 : f 0 = .error e0) (hf1 : f 1 = .error e1) (hf2 : f 2 = .ok v)
    (hg : ∀ k, g k = .error (errs k)) :
    translate_one f mr = ⟨some v, none, 2⟩ ∧
    translate_one g mr = ⟨none, some (errs mr), mr⟩ := by
  constructor
  · rw [translate_one]
    rw [attemptLoop]
    simp only [show (0 : Nat) ≤ mr by omega, dite_true, hf0]
    rw [attemptLoop]
    simp only [show 1 ≤ mr by omega, dite_true, hf1]
    rw [attemptLoop]
    simp only [show 2 ≤ mr by omega, dite_true, hf2]
  · exact attemptLoop_allFail g errs hg mr (mr - 0) 0 none rfl (by omega)

/-- Witness for C3 at a concrete behaviour (`max_retries = 3`). -/
theorem smart_batch_retry_counts_witness :
    translate_one (ε := Nat) (α := Nat)
      (fun k => if k < 2 then .error k else .ok 42) 3 = ⟨some 42, none, 2⟩ ∧
    translate_one (ε := Nat) (α := Nat) (fun k => .error k) 3 = ⟨none, some 3, 3⟩ :=
  smart_batch_retry_counts 3
    (fun k => if k < 2 then .error k else .ok 42)
    (fun k => .error k) 42 0 1 (fun k => k)
    (by omega) (by norm_num) (by norm_num) (by norm_num) (fun k => rfl)

/-- C4 (amended).  When `_update_batch_size` performs a tuning tick (adaptive
mode, ≥1s since the last tune, ≥10 rolling response times) and the rolling
error rate is 0.2 (> the default target 0.05), the new batch size is
`max(current - 1, 1)` — regardless of the average latency, i.e. the
error-rate check takes precedence over both latency checks.  This strictly
decreases the batch size whenever the current size is at least 2; at the
floor size 1 it leaves it at 1. -/
theorem update_batch_size_err_tick (st : BatchCtl) (now rt : ℚ) (er : Bool)
    (hA : st.adaptive_batch_size = true)
    (hT : 1 ≤ now - st.last_tune_ts)
    (hrts : 10 ≤ (pushWindow st.response_times rt max_response_times).length)
    (hefs : 20 ≤ (pushWindow st.error_flags (if er then 1 else 0) max_error_flags).length)
    (herr : ((pushWindow st.error_flags (if er then 1 else 0) max_error_flags).sum : ℚ) /
        ((pushWindow st.error_flags (if er then 1 else 0) max_error_flags).length : ℚ)
        = 2 / 10) :
    (update_batch_size st now rt er).current_batch_size
      = max (st.current_batch_size - 1) 1 := by
  rw [update_batch_size]
  rw [hA]
  simp only [Bool.true_eq_false, if_false, reduceIte]
  rw [if_neg (by linarith)]
  rw [if_pos hrts]
  rw [if_pos hefs]
  rw [if_pos (by rw [herr]; norm_num [batch_target_error_rate])]

/-- C4 (amended): see the helper above for the tick computation; the
decrement is strict exactly when the current size is at least 2. -/
theorem error_rate_decrements_batch_size (st : BatchCtl) (now rt : ℚ) (er : Bool)
    (hA : st.adaptive_batch_size = true)
    (hT : 1 ≤ now - st.last_tune_ts)
    (hrts : 10 ≤ (pushWindow st.response_times rt max_response_times).length)
    (hefs : 20 ≤ (pushWindow st.error_flags (if er then 1 else 0) max_error_flags).length)
    (herr : ((pushWindow st.error_flags (if er then 1 else 0) max_error_flags).sum : ℚ) /
        ((pushWindow st.error_flags (if er then 1 else 0) max_error_flags).length : ℚ)
        = 2 / 10) :
    (update_batch_size st now rt er).current_batch_size
      = max (st.current_batch_size - 1) 1
    ∧ (2 ≤ st.current_batch_size →
        (update_batch_size st now rt er).current_batch_size < st.current_batch_size) := by
  have hmain := update_batch_size_err_tick st now rt er hA hT hrts hefs herr
  refine ⟨hmain, fun h2 => ?_⟩
  rw [hmain]
  omega

/-- Counterexample to C4 as stated: a tuning tick with rolling error rate 0.2
(and fast latency) does NOT strictly decrease the batch size when the current
batch size is already at the floor value 1. -/
theorem error_rate_decrement_floor_counterexample :
    let st0 : BatchCtl :=
      { adaptive_batch_size := true
        current_batch_size := 1
        max_workers := 5
        response_times := List.replicate 9 (1 / 10)
        error_flags := List.replicate 3 1 ++ List.replicate 16 0
        last_tune_ts := 0 }
    10 ≤ (pushWindow st0.response_times (1 / 10) max_response_times).length
    ∧ 20 ≤ (pushWindow st0.error_flags 1 max_error_flags).length
    ∧ ((pushWindow st0.error_flags 1 max_error_flags).sum : ℚ) /
        ((pushWindow st0.error_flags 1 max_error_flags).length : ℚ) = 2 / 10
    ∧ (1 : ℚ) ≤ 5 - st0.last_tune_ts
    ∧ (pushWindow st0.response_times (1 / 10) max_response_times).sum /
        ((pushWindow st0.response_times (1 / 10) max_response_times).length : ℚ)
        < batch_target_avg_latency_s * (7 / 10)
    ∧ ¬ ((update_batch_size st0 5 (1 / 10) true).current_batch_size
          < st0.current_batch_size) := by
  refine ⟨by decide, by decide, by norm_num [pushWindow, max_error_flags], by norm_num, ?_, ?_⟩
  · norm_num [pushWindow, max_response_times, batch_target_avg_latency_s]
  · have h := update_batch_size_err_tick
      { adaptive_batch_size := true
        current_batch_size := 1
        max_workers := 5
        response_times := List.replicate 9 (1 / 10)
        error_flags := List.replicate 3 1 ++ List.replicate 16 0
        last_tune_ts := 0 } 5 (1 / 10) true rfl (by norm_num) (by decide) (by decide)
      (by norm_num [pushWindow, max_error_flags])
    simp only [h]
    decide

/-- Witness for C4: at current batch size 2, the error-rate tick strictly
decreases the size to 1. -/
theorem error_rate_decrements_batch_size_witness :
    let st0 : BatchCtl :=
      { adaptive_batch_size := true
        current_batch_size := 2
        max_workers := 5
        response_times := List.replicate 9 (1 / 10)
        error_flags := List.replicate 3 1 ++ List.replicate 16 0
        last_tune_ts := 0 }
    (update_batch_size st0 5 (1 / 10) true).current_batch_size
        = max (st0.current_batch_size - 1) 1
    ∧ (2 ≤ st0.current_batch_size →
        (update_batch_size st0 5 (1 / 10) true).current_batch_size
          < st0.current_batch_size) := by
  exact error_rate_decrements_batch_size
    { adaptive_batch_size := true
      current_batch_size := 2
      max_workers := 5
      response_times := List.replicate 9 (1 / 10)
      error_flags := List.replicate 3 1 ++ List.replicate 16 0
      last_tune_ts := 0 } 5 (1 / 10) true rfl (by norm_num) (by decide) (by decide)
    (by norm_num [pushWindow, max_error_flags])

/-- C10.  Warm-up frame conditions of the adaptive controller:
(a) an update recorded while the rolling response-time window still holds
fewer than 10 samples (after recording) never changes the batch size;
(b) on a tuning tick performed while fewer than 20 error/success flags have
been recorded, the rolling error rate is treated as 0, so the error-rate
decrement cannot fire: the new size is fully determined by the average
latency (increment if fast, decrement only if slow, else unchanged). -/
theorem batch_tuning_warmup :
    (∀ (st : BatchCtl) (now rt : ℚ) (er : Bool),
      (pushWindow st.response_times rt max_response_times).length < 10 →
      (update_batch_size st now rt er).current_batch_size = st.current_batch_size)
    ∧ (∀ (st : BatchCtl) (now rt : ℚ) (er : Bool),
      st.adaptive_batch_size = true →
      1 ≤ now - st.last_tune_ts →
      10 ≤ (pushWindow st.response_times rt max_response_times).length →
      (pushWindow st.error_flags (if er then 1 else 0) max_error_flags).length < 20 →
      (update_batch_size st now rt er).current_batch_size =
        (if (pushWindow st.response_times rt max_response_times).sum /
              ((pushWindow st.response_times rt max_response_times).length : ℚ)
            < batch_target_avg_latency_s * (7 / 10) then
          min (st.current_batch_size + 1) (max 1 batch_max_size)
        else if batch_target_avg_latency_s * (17 / 10)
            < (pushWindow st.response_times rt max_response_times).sum /
              ((pushWindow st.response_times rt max_response_times).length : ℚ) then
          max (st.current_batch_size - 1) 1
        else st.current_batch_size)) := by
  constructor
  · intro st now rt er hlen
    rw [update_batch_size]
    by_cases hA : st.adaptive_batch_size = false
    · rw [if_pos hA]
    · rw [if_neg hA]
      by_cases hth : now - st.last_tune_ts < 1
      · rw [if_pos hth]
      · rw [if_neg hth, if_neg (by omega)]
  · intro st now rt er hA hT hrts hefs
    rw [update_batch_size]
    rw [hA]
    simp only [Bool.true_eq_false, if_false, reduceIte]
    rw [if_neg (by linarith)]
    rw [if_pos hrts]
    have hef : ¬ (20 ≤ (pushWindow st.error_flags (if er then 1 else 0)
        max_error_flags).length) := by omega
    rw [if_neg hef]
    rw [if_neg (show ¬ (batch_target_error_rate < (0 : ℚ)) by
      norm_num [batch_target_error_rate])]
    by_cases hfast : (pushWindow st.response_times rt max_response_times).sum /
        ((pushWindow st.response_times rt max_response_times).length : ℚ)
        < batch_target_avg_latency_s * (7 / 10)
    · rw [if_pos hfast]
      rw [if_pos hfast]
    · rw [if_neg hfast]
      rw [if_neg hfast]
      by_cases hslow : batch_target_avg_latency_s * (17 / 10)
          < (pushWindow st.response_times rt max_response_times).sum /
            ((pushWindow st.response_times rt max_response_times).length : ℚ)
      · rw [if_pos hslow]
        rw [if_pos hslow]
      · rw [if_neg hslow]
        rw [if_neg hslow]

/-- Witness for C10 at concrete states: (a) the very first recorded sample
leaves the batch size unchanged; (b) a tick with only 6 recorded flags but
10 fast response times increments the size (error branch cannot fire). -/
theorem batch_tuning_warmup_witness :
    (update_batch_size
      { adaptive_batch_size := true, current_batch_size := 5, max_workers := 5,
        response_times := [], error_flags := [], last_tune_ts := 0 }
      5 1 false).current_batch_size = 5
    ∧ (update_batch_size
      { adaptive_batch_size := true, current_batch_size := 5, max_workers := 5,
        response_times := List.replicate 9 (1 / 10), error_flags := [1, 0, 0, 0, 0],
        last_tune_ts := 0 }
      5 (1 / 10) false).current_batch_size = 6 := by
  constructor
  · exact (batch_tuning_warmup.1
      { adaptive_batch_size := true, current_batch_size := 5, max_workers := 5,
        response_times := [], error_flags := [], last_tune_ts := 0 }
      5 1 false (by decide)).trans rfl
  · have h := batch_tuning_warmup.2
      { adaptive_batch_size := true, current_batch_size := 5, max_workers := 5,
        response_times := List.replicate 9 (1 / 10), error_flags := [1, 0, 0, 0, 0],
        last_tune_ts := 0 }
      5 (1 / 10) false rfl (by norm_num) (by decide) (by decide)
    rw [h]
    norm_num [pushWindow, max_response_times, batch_target_avg_latency_s, batch_max_size]

/-- Helper: flattening the batches produced by the batch-forming loop gives
back the walked list, prefixed by the batch under construction. -/
theorem chunkLoop_flatten (bs : Nat) :
    ∀ (l cur : List STask) (cp : Option Nat),
      (chunkLoop bs l cur cp).flatten = cur ++ l := by
  intro l
  induction l with
  | nil =>
    intro cur cp
    simp only [chunkLoop]
    by_cases h : cur.isEmpty
    · simp [h, List.isEmpty_iff.mp h]
    · simp [h]
  | cons p rest ih =>
    intro cur cp
    simp only [chunkLoop]
    by_cases hc : get_block_priority p.block_type =
        (match cp with | none => get_block_priority p.block_type | some q => q)
        ∧ cur.length < bs
    · rw [if_pos hc, ih]
      simp
    · rw [if_neg hc]
      by_cases h : cur.isEmpty
      · simp [h, List.isEmpty_iff.mp h, ih]
      · simp [h, ih]

/-- C8 (amended).  The smart batch translator returns results in
*processing* order, not in task submission order: in priority mode
(`use_priority=True`, the default) the returned results follow the stable
sort of the tasks by block-type priority; only with both priority and
grouping disabled is the returned order the submission order.  Each result
still corresponds to its task by `block_id`, and priority order differs
from submission order whenever a lower-priority task precedes a
higher-priority one. -/
theorem smart_batch_result_order (tasks : List STask) (bs : Nat) (gp : Bool) :
    translate_batch_smart_order tasks true gp bs = prioritize_tasks tasks
    ∧ translate_batch_smart_order tasks false false bs = tasks := by
  constructor
  · rw [translate_batch_smart_order]
    simp only [if_true]
    rw [chunkLoop_flatten]
    simp
  · rfl

/-- Counterexample to C8 as stated: with the default `use_priority=True`,
a paragraph task submitted before a title task yields results in the order
(title, paragraph) — not submission order. -/
theorem smart_batch_result_order_counterexample :
    translate_batch_smart_order
        [⟨0, some "paragraph"⟩, ⟨1, some "title"⟩] true true 5
      = [⟨1, some "title"⟩, ⟨0, some "paragraph"⟩]
    ∧ (translate_batch_smart_order
        [⟨0, some "paragraph"⟩, ⟨1, some "title"⟩] true true 5).map STask.block_id
      ≠ [0, 1] := by
  constructor
  · rfl
  · decide

/-- C5 (amended).  For heading candidates with levels `[1,2,2,1,3]` in
document-linear order, the level-stack construction yields exactly 2
top-level nodes: the first with 2 children (each childless) and the second
with exactly 1 child — the level-3 heading attaches directly below the
level-1 heading, and has no children (there is no sixth heading that could
be a grandchild). -/
theorem section_tree_shape_12213 (c1 c2 c3 c4 c5 : SCand)
    (h1 : c1.level = 1) (h2 : c2.level = 2) (h3 : c3.level = 2)
    (h4 : c4.level = 1) (h5 : c5.level = 3) :
    (build_sections [c1, c2, c3, c4, c5]).map secShape = [(2, [0, 0]), (1, [0])] := by
  simp [build_sections, insertCand, popGE, closeAll, closeFrame, secShape,
    h1, h2, h3, h4, h5, SecTree.children]

/-- Witness for C5 (amended) at concrete candidates. -/
theorem section_tree_shape_12213_witness :
    (build_sections
      [⟨"s1", "A", 1, 0⟩, ⟨"s2", "B", 2, 0⟩, ⟨"s3", "C", 2, 0⟩,
       ⟨"s4", "D", 1, 1⟩, ⟨"s5", "E", 3, 1⟩]).map secShape
      = [(2, [0, 0]), (1, [0])] :=
  section_tree_shape_12213 ⟨"s1", "A", 1, 0⟩ ⟨"s2", "B", 2, 0⟩ ⟨"s3", "C", 2, 0⟩
    ⟨"s4", "D", 1, 1⟩ ⟨"s5", "E", 3, 1⟩ rfl rfl rfl rfl rfl

/-- Counterexample to C5 as stated: for a concrete `[1,2,2,1,3]` heading
sequence the second top-level node's only child has 0 children, not the
claimed 1 grandchild (5 headings produce only 5 nodes). -/
theorem section_tree_shape_counterexample :
    ¬ (let F := build_sections
        [⟨"s1", "A", 1, 0⟩, ⟨"s2", "B", 2, 0⟩, ⟨"s3", "C", 2, 0⟩,
         ⟨"s4", "D", 1, 1⟩, ⟨"s5", "E", 3, 1⟩]
      F.length = 2
      ∧ (F.getD 0 default).children.length = 2
      ∧ (F.getD 1 default).children.length = 1
      ∧ (((F.getD 1 default).children.getD 0 default)).children.length = 1) := by
  simp [build_sections, insertCand, popGE, closeAll, closeFrame, SecTree.children,
    List.getD]

/-- Helper: totality of the reading-order key comparison. -/
theorem keyTupLe_total (a b : ℤ × ℚ × ℚ) : keyTupLe a b ∨ keyTupLe b a := by
  unfold keyTupLe
  rcases lt_trichotomy a.1 b.1 with h | h | h
  · exact Or.inl (Or.inl h)
  · rcases lt_trichotomy a.2.1 b.2.1 with h2 | h2 | h2
    · exact Or.inl (Or.inr ⟨h, Or.inl h2⟩)
    · rcases le_total a.2.2 b.2.2 with h3 | h3
      · exact Or.inl (Or.inr ⟨h, Or.inr ⟨h2, h3⟩⟩)
      · exact Or.inr (Or.inr ⟨h.symm, Or.inr ⟨h2.symm, h3⟩⟩)
    · exact Or.inr (Or.inr ⟨h.symm, Or.inl h2⟩)
  · exact Or.inr (Or.inl h)

/-- Helper: transitivity of the reading-order key comparison. -/
theorem keyTupLe_trans {a b c : ℤ × ℚ × ℚ} :
    keyTupLe a b → keyTupLe b c → keyTupLe a c := by
  unfold keyTupLe
  intro h1 h2
  rcases h1 with h1 | ⟨e1, h1⟩
  · rcases h2 with h2 | ⟨e2, h2⟩
    · exact Or.inl (h1.trans h2)
    · exact Or.inl (e2 ▸ h1)
  · rcases h2 with h2 | ⟨e2, h2⟩
    · exact Or.inl (e1 ▸ h2)
    · refine Or.inr ⟨e1.trans e2, ?_⟩
      rcases h1 with h1 | ⟨f1, h1⟩
      · rcases h2 with h2 | ⟨f2, h2⟩
        · exact Or.inl (h1.trans h2)
        · exact Or.inl (f2 ▸ h1)
      · rcases h2 with h2 | ⟨f2, h2⟩
        · exact Or.inl (f1 ▸ h2)
        · exact Or.inr ⟨f1.trans f2, h1.trans h2⟩

/-- Helper: membership in `List.enum` determines the element at that index. -/
theorem mem_enum_get (l : List α) (i : Nat) (a : α) :
    (i, a) ∈ l.enum → l.get? i = some a := by
  intro h
  have := List.mem_enum_iff_getElem?.mp h
  rw [List.get?_eq_getElem?]
  exact this

/-- C7.  After `optimize_reading_order` on a page with `n` blocks:
the assigned `reading_order` values are exactly `0..n-1` (a duplicate-free
permutation), the blocks (in final order) are a permutation of the input
sorted by the `(column_index, y0, x0)` key, and on a two-column page
(`400 ≤ width < 700`) every column-0 block's reading order precedes every
column-1 block's. -/
theorem reading_order_total_order (blocks : List RBlock) (pw : ℚ) :
    ((optimize_reading_order blocks pw).map Prod.fst = List.range blocks.length)
    ∧ ((optimize_reading_order blocks pw).map Prod.snd).Perm blocks
    ∧ List.Sorted
        (fun a b => keyTupLe (get_sort_key a pw) (get_sort_key b pw))
        ((optimize_reading_order blocks pw).map Prod.snd)
    ∧ (400 ≤ pw → pw < 700 →
        ∀ p q, p ∈ optimize_reading_order blocks pw →
          q ∈ optimize_reading_order blocks pw →
          (get_sort_key p.2 pw).1 = 0 → (get_sort_key q.2 pw).1 = 1 →
          p.1 < q.1) := by
  have hsorted : List.Sorted
      (fun a b => keyTupLe (get_sort_key a pw) (get_sort_key b pw))
      (List.insertionSort
        (fun a b => keyTupLe (get_sort_key a pw) (get_sort_key b pw)) blocks) := by
    haveI : IsTotal RBlock
        (fun a b => keyTupLe (get_sort_key a pw) (get_sort_key b pw)) :=
      ⟨fun a b => keyTupLe_total _ _⟩
    haveI : IsTrans RBlock
        (fun a b => keyTupLe (get_sort_key a pw) (get_sort_key b pw)) :=
      ⟨fun _ _ _ h1 h2 => keyTupLe_trans h1 h2⟩
    exact List.sorted_insertionSort _ blocks
  refine ⟨?_, ?_, ?_, ?_⟩
  · rw [optimize_reading_order, List.enum_map_fst, List.length_insertionSort]
  · rw [optimize_reading_order, List.enum_map_snd]
    exact List.perm_insertionSort _ blocks
  · rw [optimize_reading_order, List.enum_map_snd]
    exact hsorted
  · intro _ _ p q hp hq hp0 hq1
    obtain ⟨i, a⟩ := p
    obtain ⟨j, b⟩ := q
    simp only at hp0 hq1 ⊢
    by_contra hij
    push_neg at hij
    have hga := mem_enum_get _ _ _ (by exact hp)
    have hgb := mem_enum_get _ _ _ (by exact hq)
    rcases Nat.lt_or_ge j i with hji | hle
    · have hpw : List.Pairwise
          (fun a b => keyTupLe (get_sort_key a pw) (get_sort_key b pw))
          (List.insertionSort
            (fun a b => keyTupLe (get_sort_key a pw) (get_sort_key b pw)) blocks) :=
        hsorted
      rw [List.pairwise_iff_get] at hpw
      have hilen : i < (List.insertionSort
          (fun a b => keyTupLe (get_sort_key a pw) (get_sort_key b pw)) blocks).length := by
        have := List.get?_eq_some.mp hga
        exact this.1
      have hjlen : j < (List.insertionSort
          (fun a b => keyTupLe (get_sort_key a pw) (get_sort_key b pw)) blocks).length := by
        have := List.get?_eq_some.mp hgb
        exact this.1
      have hrel := hpw ⟨j, hjlen⟩ ⟨i, hilen⟩ hji
      have ha' : (List.insertionSort
          (fun a b => keyTupLe (get_sort_key a pw) (get_sort_key b pw)) blocks).get
            ⟨i, hilen⟩ = a := by
        have := List.get?_eq_some.mp hga
        obtain ⟨h1, h2⟩ := this
        simpa using h2
      have hb' : (List.insertionSort
          (fun a b => keyTupLe (get_sort_key a pw) (get_sort_key b pw)) blocks).get
            ⟨j, hjlen⟩ = b := by
        have := List.get?_eq_some.mp hgb
        obtain ⟨h1, h2⟩ := this
        simpa using h2
      rw [ha', hb'] at hrel
      rcases hrel with hlt | ⟨heq, _⟩
      · rw [hp0, hq1] at hlt
        exact absurd hlt (by norm_num)
      · rw [hp0, hq1] at heq
        exact absurd heq (by norm_num)
    · have hij' : i = j := by omega
      subst hij'
      rw [hga] at hgb
      injection hgb with hab
      rw [hab] at hp0
      rw [hp0] at hq1
      exact absurd hq1 (by norm_num)

/-- Witness for C7 on a concrete two-column page (width 600): a right-column
block listed first still reads after the left-column block. -/
theorem reading_order_total_order_witness :
    ((optimize_reading_order
        [⟨some (310, 10, 330, 20)⟩, ⟨some (10, 50, 30, 60)⟩] 600).map Prod.fst
      = List.range 2)
    ∧ (0 : Nat) < 1 := by
  have hopt : optimize_reading_order
      [⟨some (310, 10, 330, 20)⟩, ⟨some (10, 50, 30, 60)⟩] 600
      = [(0, ⟨some (10, 50, 30, 60)⟩), (1, ⟨some (310, 10, 330, 20)⟩)] := by
    norm_num [optimize_reading_order, List.insertionSort, List.orderedInsert,
      keyTupLe, get_sort_key, get_column_index_from_bbox, List.enum, List.enumFrom]
  refine ⟨(reading_order_total_order
      [⟨some (310, 10, 330, 20)⟩, ⟨some (10, 50, 30, 60)⟩] 600).1, ?_⟩
  exact (reading_order_total_order
      [⟨some (310, 10, 330, 20)⟩, ⟨some (10, 50, 30, 60)⟩] 600).2.2.2
    (by norm_num) (by norm_num)
    (0, ⟨some (10, 50, 30, 60)⟩) (1, ⟨some (310, 10, 330, 20)⟩)
    (by rw [hopt]; simp) (by rw [hopt]; simp)
    (by norm_num [get_sort_key, get_column_index_from_bbox])
    (by norm_num [get_sort_key, get_column_index_from_bbox])

/-- Helper: `dropWhile` over a list ending in a non-matching element yields a
list ending in that element. -/
theorem dropWhile_append_last (p : Char → Bool) (c : Char) (hc : p c = false) :
    ∀ l : Str, ∃ u : Str, ((l ++ [c]).dropWhile p).reverse = c :: u := by
  intro l
  induction l with
  | nil => exact ⟨[], by simp [List.dropWhile, hc]⟩
  | cons a t ih =>
    by_cases hp : p a = true
    · simpa [List.dropWhile, hp] using ih
    · refine ⟨t.reverse ++ [a], ?_⟩
      simp [List.dropWhile, hp]

/-- Helper: stripping a string whose first character is not whitespace keeps
that first character. -/
theorem pyStrip_cons_of_not_space (c : Char) (t : Str) (hc : pySpace c = false) :
    ∃ u, pyStrip (c :: t) = c :: u := by
  unfold pyStrip
  rw [List.dropWhile_cons]
  simp only [hc, Bool.false_eq_true, if_false, List.reverse_cons]
  exact dropWhile_append_last pySpace c hc t.reverse

/-- Helper: any text starting with the digit `1` matches the fifth footnote
marker pattern, hence the marker disjunction. -/
theorem marker_of_one_head (u : Str) :
    starts_with_footnote_marker ('1' :: u) = true := by
  have h5 : fnPat5 ('1' :: u) = true := by
    unfold fnPat5
    simp [List.dropWhile, pySpace]
  unfold starts_with_footnote_marker
  rw [h5]
  simp

/-- Helper: the footnote score never exceeds 14 (= 3+4+2+2+1+2). -/
theorem footnote_score_le_14 (b : FBlock) (ph : ℚ) : footnote_score b ph ≤ 14 := by
  unfold footnote_score
  cases hb : b.bbox with
  | none => simp
  | some q =>
    obtain ⟨x0, y0, x1, y1⟩ := q
    simp only
    split_ifs <;> omega

/-- C6 (amended).  A block whose text starts with "1) " and whose height is
1% of the page height: at `y0 = 0.95*page_height` it scores at least 6
(bottom +3, marker +4, small height +2), is flagged as a footnote, and gets
`footnote_confidence = score/14` (the clamp to [0,1] is inactive because the
score is at most 14); at `y0 = 0.5*page_height` it is STILL flagged — the
marker (+4) and small-height (+2) signals alone reach the threshold 6, so
only the score drops (by the bottom bonus 3), not the flag. -/
theorem footnote_scoring_below_and_mid (rest : Str) (ph fs : ℚ) (hph : 0 < ph) :
    let bBot : FBlock := ⟨none, false, none,
      some (20, (95 / 100) * ph, 100, (95 / 100) * ph + ph / 100),
      '1' :: ')' :: ' ' :: rest, fs⟩
    let bMid : FBlock := ⟨none, false, none,
      some (20, (1 / 2) * ph, 100, (1 / 2) * ph + ph / 100),
      '1' :: ')' :: ' ' :: rest, fs⟩
    6 ≤ footnote_score bBot ph
    ∧ (enhance_footnote_block bBot ph).is_footnote = true
    ∧ (enhance_footnote_block bBot ph).footnote_confidence
        = some ((footnote_score bBot ph : ℚ) / 14)
    ∧ 6 ≤ footnote_score bMid ph
    ∧ (enhance_footnote_block bMid ph).is_footnote = true := by
  intro bBot bMid
  obtain ⟨u, hstrip⟩ := pyStrip_cons_of_not_space '1' (')' :: ' ' :: rest) (by decide)
  have hmark : starts_with_footnote_marker (pyStrip ('1' :: ')' :: ' ' :: rest)) = true := by
    rw [hstrip]; exact marker_of_one_head u
  have hscoreBot : 6 ≤ footnote_score bBot ph := by
    unfold footnote_score bBot
    simp only
    rw [if_pos (by linarith : (85 / 100 : ℚ) * ph ≤ (95 / 100) * ph)]
    rw [if_pos hmark]
    rw [if_pos (by ring_nf; linarith :
      ((95 / 100) * ph + ph / 100) - (95 / 100) * ph < (25 / 1000) * ph)]
    split_ifs <;> omega
  have hscoreMid : 6 ≤ footnote_score bMid ph := by
    unfold footnote_score bMid
    simp only
    rw [if_pos hmark]
    rw [if_pos (by ring_nf; linarith :
      ((1 / 2) * ph + ph / 100) - (1 / 2) * ph < (25 / 1000) * ph)]
    split_ifs <;> omega
  refine ⟨hscoreBot, ?_, ?_, hscoreMid, ?_⟩
  · unfold enhance_footnote_block bBot
    simp only [Option.isSome_none, Bool.false_eq_true, if_false]
    rw [if_pos hscoreBot]
  · unfold enhance_footnote_block bBot
    simp only [Option.isSome_none, Bool.false_eq_true, if_false]
    rw [if_pos hscoreBot]
    simp only
    congr 1
    rw [min_eq_left]
    rw [div_le_one (by norm_num)]
    exact_mod_cast footnote_score_le_14 bBot ph
  · unfold enhance_footnote_block bMid
    simp only [Option.isSome_none, Bool.false_eq_true, if_false]
    rw [if_pos hscoreMid]

/-- Witness for C6 (amended) on a concrete block ("1) a", page height 100). -/
theorem footnote_scoring_below_and_mid_witness :
    6 ≤ footnote_score
      ⟨none, false, none, some (20, (95 / 100) * 100, 100, (95 / 100) * 100 + 100 / 100),
        '1' :: ')' :: ' ' :: ['a'], 0⟩ 100
    ∧ (enhance_footnote_block
      ⟨none, false, none, some (20, (95 / 100) * 100, 100, (95 / 100) * 100 + 100 / 100),
        '1' :: ')' :: ' ' :: ['a'], 0⟩ 100).is_footnote = true
    ∧ (enhance_footnote_block
      ⟨none, false, none, some (20, (95 / 100) * 100, 100, (95 / 100) * 100 + 100 / 100),
        '1' :: ')' :: ' ' :: ['a'], 0⟩ 100).footnote_confidence
      = some ((footnote_score
        ⟨none, false, none, some (20, (95 / 100) * 100, 100, (95 / 100) * 100 + 100 / 100),
          '1' :: ')' :: ' ' :: ['a'], 0⟩ 100 : ℚ) / 14)
    ∧ 6 ≤ footnote_score
      ⟨none, false, none, some (20, (1 / 2) * 100, 100, (1 / 2) * 100 + 100 / 100),
        '1' :: ')' :: ' ' :: ['a'], 0⟩ 100
    ∧ (enhance_footnote_block
      ⟨none, false, none, some (20, (1 / 2) * 100, 100, (1 / 2) * 100 + 100 / 100),
        '1' :: ')' :: ' ' :: ['a'], 0⟩ 100).is_footnote = true :=
  footnote_scoring_below_and_mid ['a'] 100 0 (by norm_num)

/-- Counterexample to C6 as stated: the same "1) "-marked, 1%-height block
placed at `y0 = 0.5 * page_height` is still flagged as a footnote (score 6
from marker +4 and small height +2), where the claim says it must not be. -/
theorem footnote_midpage_counterexample :
    6 ≤ footnote_score
      ⟨none, false, none, some (20, 50, 100, 51), "1) a".data, 0⟩ 100
    ∧ (enhance_footnote_block
      ⟨none, false, none, some (20, 50, 100, 51), "1) a".data, 0⟩ 100).is_footnote
      = true := by
  have hmark : starts_with_footnote_marker (pyStrip ("1) a".data)) = true := by decide
  have href : has_reference_markers (pyStrip ("1) a".data)) = false := by decide
  have hlen : ¬ (5 < (pyStrip ("1) a".data)).length ∧ (pyStrip ("1) a".data)).length < 800) := by
    decide
  have hscore : 6 ≤ footnote_score
      ⟨none, false, none, some (20, 50, 100, 51), "1) a".data, 0⟩ 100 := by
    unfold footnote_score
    simp only
    rw [if_pos hmark]
    rw [if_pos (by norm_num : (51 : ℚ) - 50 < (25 / 1000) * 100)]
    split_ifs <;> omega
  refine ⟨hscore, ?_⟩
  unfold enhance_footnote_block
  simp only [Option.isSome_none, Bool.false_eq_true, if_false]
  rw [if_pos hscore]

/-- Helper: unfolding the array case of the normalizer. -/
theorem normalize_jarr (l : List JVal) :
    normalize_params_recursively (.jarr l)
      = .jarr (l.map normalize_params_recursively) := by
  rw [normalize_params_recursively]
  congr 1
  rw [List.map_attach]
  exact List.pmap_eq_map _ normalize_params_recursively _ _

/-- Helper: unfolding the dict case of the normalizer. -/
theorem normalize_jobj (l : List (String × JVal)) :
    normalize_params_recursively (.jobj l)
      = .jobj ((sortPairs l).map
          (fun kv => (kv.1, normalize_params_recursively kv.2))) := by
  rw [normalize_params_recursively]
  congr 1
  rw [List.map_attach]
  exact List.pmap_eq_map _
    (fun kv : String × JVal => (kv.1, normalize_params_recursively kv.2)) _ _

/-- Helper: `sortPairs` on a cons is an ordered insertion into the sorted
tail. -/
theorem sortPairs_cons (a : String × JVal) (l : List (String × JVal)) :
    sortPairs (a :: l)
      = List.orderedInsert (fun x y : String × JVal => x.1 ≤ y.1) a (sortPairs l) :=
  rfl

/-- Helper: `orderedInsert` commutes with the value-normalizing map when the
inserted pairs have the same key and normal value and the lists agree after
the map (insertion position depends only on keys). -/
theorem map_norm_orderedInsert (a b : String × JVal)
    (hk : a.1 = b.1) (hv : normalize_params_recursively a.2
      = normalize_params_recursively b.2) :
    ∀ (l₁ l₂ : List (String × JVal)),
      l₁.map (fun kv => (kv.1, normalize_params_recursively kv.2))
        = l₂.map (fun kv => (kv.1, normalize_params_recursively kv.2)) →
      (List.orderedInsert (fun x y : String × JVal => x.1 ≤ y.1) a l₁).map
          (fun kv => (kv.1, normalize_params_recursively kv.2))
        = (List.orderedInsert (fun x y : String × JVal => x.1 ≤ y.1) b l₂).map
          (fun kv => (kv.1, normalize_params_recursively kv.2)) := by
  intro l₁
  induction l₁ with
  | nil =>
    intro l₂ hl
    have : l₂ = [] := by
      cases l₂ with
      | nil => rfl
      | cons c cs => simp at hl
    subst this
    simp [List.orderedInsert, hk, hv]
  | cons x xs ih =>
    intro l₂ hl
    cases l₂ with
    | nil => simp at hl
    | cons y ys =>
      simp only [List.map_cons, List.cons.injEq, Prod.mk.injEq] at hl
      obtain ⟨⟨hky, hvy⟩, htl⟩ := hl
      simp only [List.orderedInsert]
      by_cases hc : a.1 ≤ x.1
      · rw [if_pos hc, if_pos (by rw [← hky, ← hk]; exact hc)]
        simp only [List.map_cons, List.cons.injEq, Prod.mk.injEq]
        exact ⟨⟨hk, hv⟩, ⟨hky, hvy⟩, htl⟩
      · rw [if_neg hc, if_neg (by rw [← hky, ← hk]; exact hc)]
        simp only [List.map_cons, List.cons.injEq, Prod.mk.injEq]
        exact ⟨⟨hky, hvy⟩, ih ys htl⟩

/-- Helper: two key-sorted pair lists that are permutations of each other
with duplicate-free keys are equal. -/
theorem eq_of_perm_sorted_nodup_keys :
    ∀ (l l' : List (String × JVal)), l.Perm l' →
      List.Sorted (fun x y : String × JVal => x.1 ≤ y.1) l →
      List.Sorted (fun x y : String × JVal => x.1 ≤ y.1) l' →
      (l.map Prod.fst).Nodup → l = l' := by
  intro l
  induction l with
  | nil =>
    intro l' hp _ _ _
    exact (hp.nil_eq).symm ▸ rfl
  | cons a t ih =>
    intro l' hp hs hs' hnd
    cases l' with
    | nil => exact absurd hp.symm.nil_eq (by simp)
    | cons a' t' =>
      have haa' : a' = a := by
        have ha'mem : a' ∈ a :: t := hp.mem_iff.mpr (by simp)
        rcases List.mem_cons.mp ha'mem with h | h
        · exact h
        · exfalso
          have hamem : a ∈ a' :: t' := hp.mem_iff.mp (by simp)
          have hle1 : a.1 ≤ a'.1 := (List.sorted_cons.mp hs).1 a' h
          have hkey : a'.1 = a.1 := by
            rcases List.mem_cons.mp hamem with h2 | h2
            · rw [h2]
            · exact le_antisymm ((List.sorted_cons.mp hs').1 a h2) hle1
          have : a.1 ∈ t.map Prod.fst := by
            rw [← hkey]
            exact List.mem_map_of_mem Prod.fst h
          exact (List.nodup_cons.mp (by simpa using hnd)).1 this
      subst haa'
      have htp : t.Perm t' := hp.cons_inv
      have := ih t' htp (List.sorted_cons.mp hs).2 (List.sorted_cons.mp hs').2
        (List.nodup_cons.mp (by simpa using hnd)).2
      rw [this]

/-- Helper: the normalizer maps structurally-equal-up-to-key-order values to
the same normal form. -/
theorem normalize_eq_of_equiv {a b : JVal} (h : EquivJ a b) :
    normalize_params_recursively a = normalize_params_recursively b := by
  induction h with
  | enull => rfl
  | ebool b => rfl
  | eint n => rfl
  | estr s => rfl
  | earrNil => rfl
  | earrCons hx hxs ih1 ih2 =>
    have hxs' := ih2
    rw [normalize_jarr, normalize_jarr] at hxs'
    injection hxs' with h2
    rw [normalize_jarr, normalize_jarr]
    simp only [List.map_cons]
    rw [ih1, h2]
  | eobjNil => rfl
  | eobjCons hv hxs ih1 ih2 =>
    rename_i k v w xs ys
    have htl := ih2
    rw [normalize_jobj, normalize_jobj] at htl
    injection htl with h2
    rw [normalize_jobj, normalize_jobj]
    rw [sortPairs_cons, sortPairs_cons]
    congr 1
    exact map_norm_orderedInsert (k, v) (k, w) rfl ih1 _ _ h2
  | eobjPerm hperm hnd _h ih =>
    rename_i l₁ l₂ l₃
    have hsorteq : sortPairs l₁ = sortPairs l₂ := by
      haveI : IsTotal (String × JVal) (fun x y : String × JVal => x.1 ≤ y.1) :=
        ⟨fun a b => le_total a.1 b.1⟩
      haveI : IsTrans (String × JVal) (fun x y : String × JVal => x.1 ≤ y.1) :=
        ⟨fun a b c h1 h2 => le_trans h1 h2⟩
      apply eq_of_perm_sorted_nodup_keys
      · exact (List.perm_insertionSort _ l₁).trans
          (hperm.trans (List.perm_insertionSort _ l₂).symm)
      · exact List.sorted_insertionSort _ l₁
      · exact List.sorted_insertionSort _ l₂
      · have hmp : ((sortPairs l₁).map Prod.fst).Perm (l₁.map Prod.fst) :=
          (List.perm_insertionSort _ l₁).map Prod.fst
        exact hmp.nodup_iff.mpr hnd
    rw [normalize_jobj, hsorteq, ← normalize_jobj]
    exact ih

/-- C2.  Two parameter dicts that are equal as nested key/value structures
but whose (unique) keys were inserted in different orders at any depth
normalize to the same value, serialize to byte-identical JSON, and produce
the same cache key. -/
theorem cache_key_determinism (params₁ params₂ : List (String × JVal))
    (h : EquivJ (.jobj params₁) (.jobj params₂)) :
    normalize_params_recursively (.jobj params₁)
      = normalize_params_recursively (.jobj params₂)
    ∧ serialize_params params₁ = serialize_params params₂
    ∧ ∀ eng txt : Str, build_cache_key eng (serialize_params params₁) txt
        = build_cache_key eng (serialize_params params₂) txt := by
  have hn := normalize_eq_of_equiv h
  refine ⟨hn, ?_, ?_⟩
  · unfold serialize_params
    rw [hn]
  · intro eng txt
    unfold build_cache_key serialize_params
    rw [hn]

/-- Witness for C2: a two-level dict (with a dict nested inside a list)
whose keys are inserted in different orders at every depth serializes
identically and yields the same cache key. -/
theorem cache_key_determinism_witness :
    serialize_params
        [("b", .jint 1),
         ("a", .jobj [("y", .jint 2),
                      ("x", .jarr [.jobj [("q", .jint 3), ("p", .jint 4)]])])]
      = serialize_params
        [("a", .jobj [("x", .jarr [.jobj [("p", .jint 4), ("q", .jint 3)]]),
                      ("y", .jint 2)]),
         ("b", .jint 1)]
    ∧ build_cache_key "google".data
        (serialize_params
          [("b", .jint 1),
           ("a", .jobj [("y", .jint 2),
                        ("x", .jarr [.jobj [("q", .jint 3), ("p", .jint 4)]])])])
        "hello".data
      = build_cache_key "google".data
        (serialize_params
          [("a", .jobj [("x", .jarr [.jobj [("p", .jint 4), ("q", .jint 3)]]),
                        ("y", .jint 2)]),
           ("b", .jint 1)])
        "hello".data := by
  have hinner : EquivJ
      (.jobj [("q", .jint 3), ("p", .jint 4)])
      (.jobj [("p", .jint 4), ("q", .jint 3)]) :=
    EquivJ.eobjPerm
      (List.Perm.swap ("p", JVal.jint 4) ("q", JVal.jint 3) [])
      (by decide)
      (EquivJ.eobjCons (EquivJ.eint 4) (EquivJ.eobjCons (EquivJ.eint 3) EquivJ.eobjNil))
  have hmid : EquivJ
      (.jobj [("y", .jint 2),
              ("x", .jarr [.jobj [("q", .jint 3), ("p", .jint 4)]])])
      (.jobj [("x", .jarr [.jobj [("p", .jint 4), ("q", .jint 3)]]),
              ("y", .jint 2)]) :=
    EquivJ.eobjPerm
      (List.Perm.swap
        ("x", JVal.jarr [.jobj [("q", .jint 3), ("p", .jint 4)]])
        ("y", JVal.jint 2) [])
      (by decide)
      (EquivJ.eobjCons (EquivJ.earrCons hinner EquivJ.earrNil)
        (EquivJ.eobjCons (EquivJ.eint 2) EquivJ.eobjNil))
  have hequiv : EquivJ
      (.jobj [("b", .jint 1),
              ("a", .jobj [("y", .jint 2),
                           ("x", .jarr [.jobj [("q", .jint 3), ("p", .jint 4)]])])])
      (.jobj [("a", .jobj [("x", .jarr [.jobj [("p", .jint 4), ("q", .jint 3)]]),
                           ("y", .jint 2)]),
              ("b", .jint 1)]) :=
    EquivJ.eobjPerm
      (List.Perm.swap
        ("a", JVal.jobj [("y", .jint 2),
          ("x", .jarr [.jobj [("q", .jint 3), ("p", .jint 4)]])])
        ("b", JVal.jint 1) [])
      (by decide)
      (EquivJ.eobjCons hmid (EquivJ.eobjCons (EquivJ.eint 1) EquivJ.eobjNil))
  have h := cache_key_determinism _ _ hequiv
  exact ⟨h.2.1, h.2.2 "google".data "hello".data⟩

/-- Helper: dropping past an appended list. -/
theorem drop_append_right {α : Type} (l₁ l₂ : List α) (i : Nat) (h : l₁.length ≤ i) :
    (l₁ ++ l₂).drop i = l₂.drop (i - l₁.length) := by
  have hi : i = l₁.length + (i - l₁.length) := by omega
  conv_lhs => rw [hi]
  rw [← List.drop_drop, List.drop_left]

/-- Helper: the two-character close finder returns a position carrying both
characters, at or after the start. -/
theorem findClose2_spec (t : Str) (a b : Char) :
    ∀ (fuel k k' : Nat), findClose2 t a b fuel k = some k' →
      k ≤ k' ∧ t.get? k' = some a ∧ t.get? (k' + 1) = some b := by
  intro fuel
  induction fuel with
  | zero => intro k k' h; simp [findClose2] at h
  | succ n ih =>
    intro k k' h
    simp only [findClose2] at h
    by_cases hc : t.get? k = some a ∧ t.get? (k + 1) = some b
    · rw [if_pos hc] at h
      injection h with h
      subst h
      exact ⟨le_refl _, hc.1, hc.2⟩
    · rw [if_neg hc] at h
      by_cases hk : k < t.length
      · rw [if_pos hk] at h
        obtain ⟨h1, h2, h3⟩ := ih (k + 1) k' h
        exact ⟨by omega, h2, h3⟩
      · rw [if_neg hk] at h
        exact absurd h (by simp)

/-- Helper: the inline-close finder returns a dollar position at or after the
start. -/
theorem findDollarStop_spec (t : Str) :
    ∀ (fuel k j : Nat), findDollarStop t fuel k = some j →
      k ≤ j ∧ t.get? j = some '$' := by
  intro fuel
  induction fuel with
  | zero => intro k j h; simp [findDollarStop] at h
  | succ n ih =>
    intro k j h
    simp only [findDollarStop] at h
    split at h
    · exact absurd h (by simp)
    · rename_i c hg
      split at h
      · rename_i hc
        injection h with h
        subst h
        exact ⟨le_refl _, by rw [hg, hc]⟩
      · split at h
        · exact absurd h (by simp)
        · obtain ⟨h1, h2⟩ := ih (k + 1) j h
          exact ⟨by omega, h2⟩

/-- Helper: spans found by any of the four matchers are nonempty and end
within the text. -/
theorem matchAt_spec (t : Str) (i e : Nat)
    (h : ddMatchAt t i = some e ∨ inlineMatchAt t i = some e ∨
         parenMatchAt t i = some e ∨ brackMatchAt t i = some e) :
    i < e ∧ e ≤ t.length := by
  have hclose : ∀ (a b : Char),
      (match findClose2 t a b (t.length + 1) (i + 3) with
        | some k => some (k + 2)
        | none => none) = some e → i < e ∧ e ≤ t.length := by
    intro a b hm
    cases hfc : findClose2 t a b (t.length + 1) (i + 3) with
    | none => rw [hfc] at hm; exact absurd hm (by simp)
    | some k =>
      rw [hfc] at hm
      injection hm with hm
      obtain ⟨h1, h2, h3⟩ := findClose2_spec t a b _ _ _ hfc
      have : k + 1 < t.length := (List.get?_eq_some.mp h3).1
      omega
  rcases h with h | h | h | h
  · unfold ddMatchAt at h
    by_cases hc : t.get? i = some '$' ∧ t.get? (i + 1) = some '$'
    · rw [if_pos hc] at h; exact hclose '$' '$' h
    · rw [if_neg hc] at h; exact absurd h (by simp)
  · unfold inlineMatchAt at h
    split at h
    · rename_i hc
      split at h
      · rename_i j hfd
        obtain ⟨h1, h2⟩ := findDollarStop_spec t _ _ _ hfd
        split at h
        · injection h with h
          have : j < t.length := (List.get?_eq_some.mp h2).1
          omega
        · exact absurd h (by simp)
      · exact absurd h (by simp)
    · exact absurd h (by simp)
  · unfold parenMatchAt at h
    by_cases hc : t.get? i = some '\\' ∧ t.get? (i + 1) = some '('
    · rw [if_pos hc] at h; exact hclose '\\' ')' h
    · rw [if_neg hc] at h; exact absurd h (by simp)
  · unfold brackMatchAt at h
    by_cases hc : t.get? i = some '\\' ∧ t.get? (i + 1) = some '['
    · rw [if_pos hc] at h; exact hclose '\\' ']' h
    · rw [if_neg hc] at h; exact absurd h (by simp)

/-- Helper: every span produced by a single-pattern scan is nonempty and
in bounds, provided the matcher's spans are. -/
theorem finditerAux_spec (M : Str → Nat → Option Nat) (t : Str)
    (hM : ∀ i e, M t i = some e → i < e ∧ e ≤ t.length) :
    ∀ (fuel i : Nat) (sp : Nat × Nat), sp ∈ finditerAux M t fuel i →
      sp.1 < sp.2 ∧ sp.2 ≤ t.length := by
  intro fuel
  induction fuel with
  | zero => intro i sp h; simp [finditerAux] at h
  | succ n ih =>
    intro i sp h
    simp only [finditerAux] at h
    cases hm : M t i with
    | some e =>
      rw [hm] at h
      rcases List.mem_cons.mp h with h | h
      · subst h; exact hM i e hm
      · exact ih e sp h
    | none =>
      rw [hm] at h
      exact ih (i + 1) sp h

/-- Helper: all collected spans are nonempty and in bounds. -/
theorem collectSpans_spec (t : Str) :
    ∀ sp ∈ collectSpans t, sp.1 < sp.2 ∧ sp.2 ≤ t.length := by
  intro sp hsp
  unfold collectSpans finditer at hsp
  rcases List.mem_append.mp hsp with h123 | hbr
  rotate_left
  · exact finditerAux_spec brackMatchAt t
      (fun i e h => matchAt_spec t i e (Or.inr (Or.inr (Or.inr h)))) _ _ sp hbr
  rcases List.mem_append.mp h123 with h12 | hpa
  rotate_left
  · exact finditerAux_spec parenMatchAt t
      (fun i e h => matchAt_spec t i e (Or.inr (Or.inr (Or.inl h)))) _ _ sp hpa
  rcases List.mem_append.mp h12 with hdd | hin
  · exact finditerAux_spec ddMatchAt t
      (fun i e h => matchAt_spec t i e (Or.inl h)) _ _ sp hdd
  · exact finditerAux_spec inlineMatchAt t
      (fun i e h => matchAt_spec t i e (Or.inr (Or.inl h))) _ _ sp hin

/-- Helper: the de-overlap filter produces a chained span list bounded by the
bound on the input spans. -/
theorem filterSpans_chained (L : Nat) :
    ∀ (l : List (Nat × Nat)), (∀ sp ∈ l, sp.1 < sp.2 ∧ sp.2 ≤ L) →
      ∀ lo, Chained lo (filterSpans l lo) ∧
        lastEnd lo (filterSpans l lo) ≤ max lo L := by
  intro l
  induction l with
  | nil =>
    intro _ lo
    exact ⟨trivial, le_max_left _ _⟩
  | cons hd rest ih =>
    obtain ⟨s, e⟩ := hd
    intro hOK lo
    have hhd := hOK (s, e) (by simp)
    have hrest : ∀ sp ∈ rest, sp.1 < sp.2 ∧ sp.2 ≤ L := fun sp h => hOK sp (by simp [h])
    simp only [filterSpans]
    by_cases hs : s < lo
    · rw [if_pos hs]
      exact ih hrest lo
    · rw [if_neg hs]
      refine ⟨⟨by omega, hhd.1, (ih hrest e).1⟩, ?_⟩
    
      show lastEnd lo ((s, e) :: filterSpans rest e) ≤ max lo L
      have h2 := (ih hrest e).2
      have : max e L = L := max_eq_right hhd.2
      simp only [lastEnd]
      calc lastEnd e (filterSpans rest e) ≤ max e L := h2
        _ = L := this
        _ ≤ max lo L := le_max_right _ _

/-- Helper: the spans kept by `protect_math` are chained and bounded by the
text length. -/
theorem protectSpans_chained (t : Str) :
    Chained 0 (protectSpans t) ∧ lastEnd 0 (protectSpans t) ≤ t.length := by
  have hOK : ∀ sp ∈ sortSpans (collectSpans t), sp.1 < sp.2 ∧ sp.2 ≤ t.length := by
    intro sp hsp
    exact collectSpans_spec t sp ((List.mem_insertionSort _).mp hsp)
  have h := filterSpans_chained t.length _ hOK 0
  simpa [protectSpans] using h

/-- Helper: two adjacent slices of the same list concatenate to one slice. -/
theorem slice_merge (t : Str) (a b c : Nat) (hab : a ≤ b) (hbc : b ≤ c) :
    (t.drop a).take (b - a) ++ (t.drop b).take (c - b) = (t.drop a).take (c - a) := by
  have h1 : c - a = (b - a) + (c - b) := by omega
  rw [h1, List.take_add]
  congr 2
  rw [List.drop_drop]
  congr 1
  omega

/-- Helper: a slice followed by the remaining drop restores the drop. -/
theorem slice_prepend (t : Str) (a b : Nat) (hab : a ≤ b) :
    (t.drop a).take (b - a) ++ t.drop b = t.drop a := by
  conv_rhs => rw [← List.take_append_drop (b - a) (t.drop a)]
  congr 1
  rw [List.drop_drop]
  congr 1
  omega

/-- Helper: a leading slice of a `take` is a slice of the original list. -/
theorem slice_take_eq (t : Str) (prev s c : Nat) (hsc : s ≤ c) :
    ((t.take c).drop prev).take (s - prev) = (t.take s).drop prev := by
  rw [List.drop_take, List.drop_take, List.take_take]
  congr 1
  omega

/-- Helper: decomposing a chained snoc list. -/
theorem chained_snoc :
    ∀ (l : List (Nat × Nat)) (lo s e : Nat), Chained lo (l ++ [(s, e)]) →
      Chained lo l ∧ lastEnd lo l ≤ s ∧ s < e := by
  intro l
  induction l with
  | nil =>
    intro lo s e h
    obtain ⟨h1, h2, _⟩ := h
    exact ⟨trivial, h1, h2⟩
  | cons hd rest ih =>
    obtain ⟨s₁, e₁⟩ := hd
    intro lo s e h
    obtain ⟨h1, h2, h3⟩ := h
    obtain ⟨h4, h5, h6⟩ := ih e₁ s e h3
    exact ⟨⟨h1, h2, h4⟩, h5, h6⟩

/-- Helper: the last end of a snoc list. -/
theorem lastEnd_snoc :
    ∀ (l : List (Nat × Nat)) (lo s e : Nat), lastEnd lo (l ++ [(s, e)]) = e := by
  intro l
  induction l with
  | nil => intro lo s e; rfl
  | cons hd rest ih =>
    obtain ⟨s₁, e₁⟩ := hd
    intro lo s e
    simp only [List.cons_append, lastEnd]
    exact ih e₁ s e

/-- Helper: numbering a snoc list gives the last span the base number. -/
theorem numberSpans_append (l : List (Nat × Nat)) (x : Nat × Nat) (idx : Nat) :
    numberSpans (l ++ [x]) idx = numberSpans l (idx + 1) ++ [(x, idx)] := by
  induction l with
  | nil => simp [numberSpans]
  | cons hd rest ih =>
    simp only [List.cons_append, numberSpans, List.append_eq, List.length_append,
      List.length_singleton, ih]
    have h : idx + (rest.length + 1) = idx + 1 + rest.length := by omega
    rw [h]

/-- Helper: a chained list's last end is at least the lower bound. -/
theorem lastEnd_ge : ∀ (l : List (Nat × Nat)) (lo : Nat), Chained lo l → lo ≤ lastEnd lo l := by
  intro l
  induction l with
  | nil => intro lo _; exact le_refl _
  | cons hd rest ih =>
    obtain ⟨s, e⟩ := hd
    intro lo h
    obtain ⟨h1, h2, h3⟩ := h
    have := ih e h3
    simp only [lastEnd]
    omega

/-- Helper: rendering with an extra final span splits off the last
placeholder and tail. -/
theorem renderOpen_snoc (t : Str) (s e c idx : Nat) (hsc : s ≤ c) :
    ∀ (l : List (Nat × Nat)) (prev : Nat), Chained prev l → lastEnd prev l ≤ s →
      renderOpen (t.take c) prev (numberSpans l (idx + 1) ++ [((s, e), idx)])
        = renderOpen (t.take s) prev (numberSpans l (idx + 1)) ++ placeholder idx
            ++ (t.take c).drop e := by
  intro l
  induction l with
  | nil =>
    intro prev _ hle
    simp only [numberSpans, List.nil_append, renderOpen]
    rw [slice_take_eq t prev s c hsc]
  | cons hd rest ih =>
    obtain ⟨s₁, e₁⟩ := hd
    intro prev hch hle
    obtain ⟨h1, h2, h3⟩ := hch
    have hle' : lastEnd e₁ rest ≤ s := hle
    have hs₁s : s₁ ≤ s := by
      have := lastEnd_ge rest e₁ h3
      omega
    simp only [numberSpans, List.cons_append, List.append_eq, renderOpen]
    rw [slice_take_eq t prev s₁ c (by omega), slice_take_eq t prev s₁ s hs₁s]
    rw [ih e₁ h3 hle']
    simp [List.append_assoc]

/-- Helper: the replacement loop of `protect_math` produces the placeholder
interleaving, with the mapping in right-to-left processing order. -/
theorem protLoop_spec (t : Str) :
    ∀ (l : List (Nat × Nat)) (c : Nat) (R : Str) (idx : Nat),
      Chained 0 l → lastEnd 0 l ≤ c → c ≤ t.length →
      protLoop t l.reverse idx (t.take c ++ R)
        = (renderOpen (t.take c) 0 (numberSpans l idx) ++ R,
           mapOfRev t l.reverse idx) := by
  intro l
  induction l using List.reverseRecOn with
  | nil =>
    intro c R idx _ _ _
    simp [protLoop, renderOpen, numberSpans, mapOfRev]
  | append_singleton l' x ih =>
    obtain ⟨s, e⟩ := x
    intro c R idx hch hle hc
    obtain ⟨hch', hle', hse⟩ := chained_snoc l' 0 s e hch
    rw [lastEnd_snoc] at hle
    have hsc : s ≤ c := by omega
    have hcl : (t.take c).length = c := by
      rw [List.length_take]
      omega
    rw [List.reverse_append, List.reverse_singleton, List.singleton_append]
    simp only [protLoop]
    have htake : (t.take c ++ R).take s = t.take s := by
      rw [List.take_append_of_le_length (by omega), List.take_take]
      congr 1
      omega
    have hdrop : (t.take c ++ R).drop e = (t.take c).drop e ++ R := by
      rw [List.drop_append_of_le_length (by omega)]
    rw [htake, hdrop]
    have hmain := ih s (placeholder idx ++ ((t.take c).drop e ++ R)) (idx + 1)
      hch' hle' (by omega)
    simp only [List.append_assoc] at hmain ⊢
    rw [hmain]
    rw [numberSpans_append]
    rw [renderOpen_snoc t s e c idx hsc l' 0 hch' hle']
    simp [List.append_assoc, mapOfRev]

/-- Helper: characterization of `protect_math` when spans were found: the
protected text is the placeholder interleaving (numbers descending left to
right) and the mapping is in right-to-left span order. -/
theorem protect_math_spec (t : Str) (hne : protectSpans t ≠ []) :
    protect_math t
      = (renderOpen t 0 (numberSpans (protectSpans t) 1),
         mapOfRev t (protectSpans t).reverse 1) := by
  unfold protect_math
  rw [if_neg (by simpa [List.isEmpty_iff] using hne)]
  obtain ⟨hch, hle⟩ := protectSpans_chained t
  have h := protLoop_spec t (protectSpans t) t.length [] 1 hch hle (le_refl _)
  rw [List.take_length, List.append_nil] at h
  rw [h]
  simp

/-- Helper: every character of a digit string is a decimal digit character. -/
theorem natDigitsAux_chars :
    ∀ (fuel n : Nat) (c : Char), c ∈ natDigitsAux fuel n →
      ∃ m, m < 10 ∧ c = Char.ofNat (48 + m) := by
  intro fuel
  induction fuel with
  | zero => intro n c h; simp [natDigitsAux] at h
  | succ f ih =>
    intro n c h
    simp only [natDigitsAux] at h
    by_cases hn : n = 0
    · rw [if_pos hn] at h; simp at h
    · rw [if_neg hn] at h
      rcases List.mem_append.mp h with h | h
      · exact ih (n / 10) c h
      · refine ⟨n % 10, Nat.mod_lt n (by omega), ?_⟩
        simpa using h

/-- Helper: digit-string characters of `natDigits`. -/
theorem natDigits_chars (n : Nat) (c : Char) (h : c ∈ natDigits n) :
    ∃ m, m < 10 ∧ c = Char.ofNat (48 + m) := by
  unfold natDigits at h
  by_cases hn : n = 0
  · rw [if_pos hn] at h
    simp at h
    exact ⟨0, by omega, by rw [h]⟩
  · rw [if_neg hn] at h
    exact natDigitsAux_chars _ _ _ h

/-- Helper: code point of a small `Char.ofNat`. -/
theorem toNat_ofNat_small (m : Nat) (hm : m < 10) :
    (Char.ofNat (48 + m)).toNat = 48 + m := by
  interval_cases m <;> decide

/-- Helper: decimal digit characters are none of the placeholder frame
characters. -/
theorem digit_char_ne (c : Char) (h : ∃ m, m < 10 ∧ c = Char.ofNat (48 + m)) :
    c ≠ lbrace ∧ c ≠ rbrace ∧ c ≠ 'v' := by
  obtain ⟨m, hm, hc⟩ := h
  subst hc
  have ht := toNat_ofNat_small m hm
  refine ⟨?_, ?_, ?_⟩ <;> intro heq <;> rw [heq] at ht
  · rw [show lbrace.toNat = 123 from by decide] at ht; omega
  · rw [show rbrace.toNat = 125 from by decide] at ht; omega
  · rw [show ('v').toNat = 118 from by decide] at ht; omega

/-- Helper: `digitsVal` over a snoc. -/
theorem digitsVal_append (l : List Char) (c : Char) :
    digitsVal (l ++ [c]) = 10 * digitsVal l + (c.toNat - 48) := by
  unfold digitsVal
  rw [List.foldl_append]
  rfl

/-- Helper: `digitsVal` inverts `natDigitsAux`. -/
theorem digitsVal_natDigitsAux :
    ∀ (fuel n : Nat), n ≤ fuel → digitsVal (natDigitsAux fuel n) = n := by
  intro fuel
  induction fuel with
  | zero =>
    intro n hn
    have : n = 0 := by omega
    subst this
    rfl
  | succ f ih =>
    intro n hn
    simp only [natDigitsAux]
    by_cases hn0 : n = 0
    · rw [if_pos hn0, hn0]; rfl
    · rw [if_neg hn0]
      rw [digitsVal_append]
      rw [ih (n / 10) (by omega)]
      rw [toNat_ofNat_small (n % 10) (Nat.mod_lt n (by omega))]
      omega

/-- Helper: `digitsVal` inverts `natDigits`. -/
theorem digitsVal_natDigits (n : Nat) : digitsVal (natDigits n) = n := by
  unfold natDigits
  by_cases hn : n = 0
  · rw [if_pos hn, hn]; rfl
  · rw [if_neg hn]
    exact digitsVal_natDigitsAux _ _ (by omega)

/-- Helper: decimal digit strings determine the number. -/
theorem natDigits_inj {k j : Nat} (h : natDigits k = natDigits j) : k = j := by
  have := congrArg digitsVal h
  rwa [digitsVal_natDigits, digitsVal_natDigits] at this

/-- Helper: placeholders of distinct numbers are distinct. -/
theorem placeholder_inj {k j : Nat} (h : placeholder k = placeholder j) : k = j := by
  unfold placeholder at h
  injection h with _ h
  injection h with _ h
  exact natDigits_inj (List.append_cancel_right h)

/-- Helper: no character after the leading brace of a placeholder is a left
brace. -/
theorem placeholder_tail_chars (k : Nat) :
    ∀ c ∈ ('v' :: natDigits k ++ [rbrace]), c ≠ lbrace := by
  intro c hc
  rcases List.mem_cons.mp hc with h | h
  · subst h; decide
  · rcases List.mem_append.mp h with h | h
    · exact (digit_char_ne c (natDigits_chars k c h)).1
    · simp at h; subst h; decide

/-- Helper: a nonempty digit-prefix comparison against a digit string closed
by the right brace forces equality of the digit strings. -/
theorem digits_prefix_eq :
    ∀ (dk dj : List Char), (∀ c ∈ dk, c ≠ rbrace) → (∀ c ∈ dj, c ≠ rbrace) →
      ∀ R, startsWith (dj ++ [rbrace] ++ R) (dk ++ [rbrace]) = true → dk = dj := by
  intro dk
  induction dk with
  | nil =>
    intro dj hdk hdj R h
    cases dj with
    | nil => rfl
    | cons d dj' =>
      exfalso
      simp only [List.nil_append, List.cons_append, startsWith] at h
      have : d = rbrace := by
        have := (Bool.and_eq_true _ _).mp h
        exact beq_iff_eq.mp this.1
      exact hdj d (by simp) this
  | cons c dk' ih =>
    intro dj hdk hdj R h
    cases dj with
    | nil =>
      exfalso
      simp only [List.nil_append, List.cons_append, startsWith] at h
      have : rbrace = c := by
        have := (Bool.and_eq_true _ _).mp h
        exact beq_iff_eq.mp this.1
      exact hdk c (by simp) this.symm
    | cons d dj' =>
      simp only [List.cons_append, startsWith] at h
      have h2 := (Bool.and_eq_true _ _).mp h
      have hcd : d = c := beq_iff_eq.mp h2.1
      have := ih dj' (fun x hx => hdk x (by simp [hx])) (fun x hx => hdj x (by simp [hx]))
        R h2.2
      rw [this, hcd]

/-- Helper: a placeholder occurring as a prefix of another placeholder (plus
anything) forces equal numbers. -/
theorem startsWith_ph_ph {j k : Nat} (R : Str)
    (h : startsWith (placeholder j ++ R) (placeholder k) = true) : k = j := by
  unfold placeholder at h
  simp only [List.cons_append, startsWith, List.append_assoc] at h
  have h1 := (Bool.and_eq_true _ _).mp h
  have h2 := (Bool.and_eq_true _ _).mp h1.2
  have hdig := digits_prefix_eq (natDigits k) (natDigits j)
    (fun c hc => (digit_char_ne c (natDigits_chars k c hc)).2.1)
    (fun c hc => (digit_char_ne c (natDigits_chars j c hc)).2.1)
    R (by simpa [List.append_assoc] using h2.2)
  exact natDigits_inj hdig

/-- Helper: a list starts with itself (plus anything). -/
theorem startsWith_append_self : ∀ (p x : Str), startsWith (p ++ x) p = true := by
  intro p
  induction p with
  | nil => intro x; cases x <;> rfl
  | cons c ps ih =>
    intro x
    simp only [List.cons_append, startsWith, Bool.and_eq_true, beq_self_eq_true,
      true_and]
    exact ih x

/-- Helper: a prefix is no longer than the list. -/
theorem startsWith_le_length : ∀ {x p : Str}, startsWith x p = true → p.length ≤ x.length := by
  intro x
  induction x with
  | nil =>
    intro p h
    cases p with
    | nil => exact le_refl _
    | cons c ps => simp [startsWith] at h
  | cons c t ih =>
    intro p h
    cases p with
    | nil => simp
    | cons d ps =>
      simp only [startsWith, Bool.and_eq_true] at h
      have := ih h.2
      simp only [List.length_cons]
      omega

/-- Helper: a nonempty prefix pins down the head. -/
theorem startsWith_head : ∀ {x p : Str} {c : Char}, p.head? = some c →
    startsWith x p = true → x.head? = some c := by
  intro x p c hp h
  cases p with
  | nil => simp at hp
  | cons d ps =>
    cases x with
    | nil => simp [startsWith] at h
    | cons a t =>
      simp only [startsWith, Bool.and_eq_true] at h
      simp only [List.head?_cons, Option.some.injEq] at hp ⊢
      rw [beq_iff_eq.mp h.1, hp]

/-- Helper: decompose a prefix of an append: either the pattern fits in the
left part, or the left part is a proper prefix of the pattern and the rest
of the pattern starts the right part. -/
theorem startsWith_decomp : ∀ (u : Str) {z p : Str}, startsWith (u ++ z) p = true →
    startsWith u p = true ∨
      (u.length < p.length ∧ startsWith p u = true ∧
        startsWith z (p.drop u.length) = true) := by
  intro u
  induction u with
  | nil =>
    intro z p h
    cases p with
    | nil => exact Or.inl rfl
    | cons c ps =>
      exact Or.inr ⟨by simp, rfl, h⟩
  | cons a u' ih =>
    intro z p h
    cases p with
    | nil => exact Or.inl rfl
    | cons b ps =>
      simp only [List.cons_append, startsWith, Bool.and_eq_true] at h
      rcases ih h.2 with h2 | ⟨hlen, hsw, hz⟩
      · exact Or.inl (by simp only [startsWith, Bool.and_eq_true]; exact ⟨h.1, h2⟩)
      · refine Or.inr ⟨by simp only [List.length_cons]; omega, ?_, ?_⟩
        · simp only [startsWith, Bool.and_eq_true]
          exact ⟨by rw [beq_iff_eq.mp h.1]; simp, hsw⟩
        · simpa using hz
/-- Helper: a prefix of a `take` is a prefix of the original list. -/
theorem startsWith_take : ∀ (x : Str) (q : Nat) {p : Str},
    startsWith (x.take q) p = true → startsWith x p = true := by
  intro x
  induction x with
  | nil => intro q p h; simpa using h
  | cons a t ih =>
    intro q p h
    cases q with
    | zero =>
      cases p with
      | nil => rfl
      | cons d ps => simp [startsWith] at h
    | succ q' =>
      cases p with
      | nil => rfl
      | cons d ps =>
        simp only [List.take_succ_cons, startsWith, Bool.and_eq_true] at h
        simp only [startsWith, Bool.and_eq_true]
        exact ⟨h.1, ih q' h.2⟩

/-- Helper: an occurrence in a dropped suffix is an occurrence in the list. -/
theorem occursAt_drop {p t : Str} {a i : Nat}
    (h : occursAt p (t.drop a) i) : occursAt p t (a + i) := by
  unfold occursAt at h ⊢
  rwa [List.drop_drop] at h

/-- Helper: an occurrence inside a slice of `t` is an occurrence in `t`. -/
theorem occursAt_slice {p t : Str} {a m i : Nat}
    (h : occursAt p ((t.drop a).take m) i) : occursIn p t := by
  unfold occursAt at h
  rw [List.drop_take] at h
  have := startsWith_take _ _ h
  exact ⟨a + i, occursAt_drop this⟩

/-- Helper: shifting an occurrence across a left append part. -/
theorem occursAt_append_right {p : Str} (X Z : Str) (i : Nat) (h : X.length ≤ i) :
    occursAt p (X ++ Z) i ↔ occursAt p Z (i - X.length) := by
  unfold occursAt
  rw [drop_append_right X Z i h]

/-- Helper: the placeholder `{vk}` cannot occur starting inside a slice of a
text it does not occur in, when what follows the slice is empty or starts
with a left brace (a placeholder has its only left brace at position 0, so
it cannot straddle the boundary). -/
theorem not_occursAt_slice_concat {t : Str} {k : Nat}
    (H : ¬ occursIn (placeholder k) t) (a m : Nat) (Z : Str)
    (hZ : Z = [] ∨ Z.head? = some lbrace) :
    ∀ i, i < ((t.drop a).take m).length →
      ¬ occursAt (placeholder k) ((t.drop a).take m ++ Z) i := by
  intro i hi hocc
  unfold occursAt at hocc
  rw [List.drop_append_of_le_length (le_of_lt hi)] at hocc
  rcases startsWith_decomp _ hocc with hin | ⟨hlen, hsw, hz⟩
  · exact H (occursAt_slice (p := placeholder k) (a := a) (m := m) (i := i) hin)
  · set u := ((t.drop a).take m).drop i with hu
    have hulen : 1 ≤ u.length := by
      rw [hu, List.length_drop]
      omega
    have hdrop1 : (placeholder k).drop u.length
        = ('v' :: natDigits k ++ [rbrace]).drop (u.length - 1) := by
      unfold placeholder
      cases hul : u.length with
      | zero => omega
      | succ n => simp
    cases hpd : (placeholder k).drop u.length with
    | nil =>
      have hlen2 := congrArg List.length hpd
      simp only [List.length_drop, List.length_nil] at hlen2
      omega
    | cons c rest =>
      have hcmem : c ∈ ('v' :: natDigits k ++ [rbrace]) := by
        have hmem : c ∈ (placeholder k).drop u.length := by rw [hpd]; simp
        rw [hdrop1] at hmem
        exact List.mem_of_mem_drop hmem
      have hcne := placeholder_tail_chars k c hcmem
      rw [hpd] at hz
      rcases hZ with hZe | hZh
      · subst hZe
        simp [startsWith] at hz
      · have hhead := startsWith_head (by simp : (c :: rest).head? = some c) hz
        rw [hZh] at hhead
        injection hhead with hh
        exact hcne hh.symm

/-- Helper: `replaceAllAux` does not depend on the fuel once it is at least
the length of the text (for a nonempty pattern). -/
theorem replaceAllAux_fuel (pat rep : Str) (hp : pat ≠ []) :
    ∀ (fuel f : Nat) (t : Str), t.length ≤ f → f ≤ fuel →
      replaceAllAux pat rep f t = replaceAllAux pat rep t.length t := by
  intro fuel
  induction fuel with
  | zero =>
    intro f t h1 h2
    have hf : f = 0 := by omega
    subst hf
    cases t with
    | nil => rfl
    | cons c r => simp at h1
  | succ fu ih =>
    intro f t h1 h2
    cases t with
    | nil => cases f <;> rfl
    | cons c r =>
      obtain ⟨f', rfl⟩ : ∃ f', f = f' + 1 := by
        refine ⟨f - 1, ?_⟩
        simp only [List.length_cons] at h1
        omega
      simp only [List.length_cons] at h1 ⊢
      simp only [replaceAllAux]
      have hplen : 1 ≤ pat.length := by
        cases pat with
        | nil => exact absurd rfl hp
        | cons _ _ => simp
      by_cases he : pat.isEmpty = true
      · rw [if_pos he, if_pos he]
      · rw [if_neg he, if_neg he]
        by_cases hs : startsWith (c :: r) pat = true
        · rw [if_pos hs, if_pos hs]
          congr 1
          have hd : (List.drop pat.length (c :: r)).length ≤ f' := by
            rw [List.length_drop]
            simp only [List.length_cons]
            omega
          rw [ih f' (List.drop pat.length (c :: r)) hd (by omega)]
          rw [ih r.length (List.drop pat.length (c :: r))
            (by rw [List.length_drop]; simp only [List.length_cons]; omega) (by omega)]
        · rw [if_neg hs, if_neg hs]
          congr 1
          rw [ih f' r (by omega) (by omega), ih r.length r (le_refl _) (by omega)]

/-- Helper: replacing a pattern that never occurs leaves the text unchanged. -/
theorem replaceAllAux_no_occ (pat rep : Str) :
    ∀ (fuel : Nat) (t : Str), t.length ≤ fuel → (∀ i, ¬ occursAt pat t i) →
      replaceAllAux pat rep fuel t = t := by
  intro fuel
  induction fuel with
  | zero =>
    intro t h1 _
    cases t with
    | nil => rfl
    | cons c r => simp at h1
  | succ fu ih =>
    intro t h1 hno
    cases t with
    | nil => rfl
    | cons c r =>
      simp only [replaceAllAux]
      by_cases he : pat.isEmpty = true
      · rw [if_pos he]
      · rw [if_neg he]
        have hs : ¬ startsWith (c :: r) pat = true := by
          have h0 := hno 0
          unfold occursAt at h0
          simpa using h0
        rw [if_neg hs]
        congr 1
        refine ih r (by simp only [List.length_cons] at h1; omega) ?_
        intro i hocc
        refine hno (i + 1) ?_
        unfold occursAt at hocc ⊢
        rw [List.drop_succ_cons]
        exact hocc

/-- Helper: a left part containing no match passes through `replaceAllAux`
unchanged. -/
theorem replaceAllAux_prepend (pat rep : Str) (hp : pat ≠ []) :
    ∀ (X Z : Str) (fuel : Nat), X.length + Z.length ≤ fuel →
      (∀ i, i < X.length → ¬ occursAt pat (X ++ Z) i) →
      replaceAllAux pat rep fuel (X ++ Z)
        = X ++ replaceAllAux pat rep (fuel - X.length) Z := by
  intro X
  induction X with
  | nil =>
    intro Z fuel _ _
    simp
  | cons a X' ih =>
    intro Z fuel h1 hX
    obtain ⟨f, rfl⟩ : ∃ f, fuel = f + 1 := by
      refine ⟨fuel - 1, ?_⟩
      simp only [List.length_cons] at h1
      omega
    simp only [List.cons_append, replaceAllAux, List.append_eq]
    have he : ¬ pat.isEmpty = true := by simpa [List.isEmpty_iff] using hp
    rw [if_neg he]
    have hs : ¬ startsWith (a :: (X' ++ Z)) pat = true := by
      have h0 := hX 0 (by simp)
      unfold occursAt at h0
      simpa using h0
    rw [if_neg hs]
    have hX' : ∀ i, i < X'.length → ¬ occursAt pat (X' ++ Z) i := by
      intro i hi hocc
      refine hX (i + 1) (by simp only [List.length_cons]; omega) ?_
      unfold occursAt at hocc ⊢
      rw [List.cons_append, List.drop_succ_cons]
      exact hocc
    rw [ih Z f (by simp only [List.length_cons] at h1; omega) hX']
    simp only [List.length_cons]
    have hff : f + 1 - (X'.length + 1) = f - X'.length := by omega
    rw [hff]

/-- Helper: a match at the current position is replaced and scanning resumes
after it. -/
theorem replaceAllAux_at_match (pat rep : Str) (hp : pat ≠ []) (Z : Str) (fuel : Nat)
    (hf : pat.length + Z.length ≤ fuel) :
    replaceAllAux pat rep fuel (pat ++ Z) = rep ++ replaceAllAux pat rep Z.length Z := by
  cases pat with
  | nil => exact absurd rfl hp
  | cons c ps =>
    obtain ⟨f, rfl⟩ : ∃ f, fuel = f + 1 := by
      refine ⟨fuel - 1, ?_⟩
      simp only [List.length_cons] at hf
      omega
    simp only [List.cons_append, replaceAllAux, List.append_eq]
    have he : ¬ (c :: ps).isEmpty = true := by simp
    rw [if_neg he]
    have hs : startsWith (c :: (ps ++ Z)) (c :: ps) = true := by
      have h0 := startsWith_append_self (c :: ps) Z
      simpa using h0
    rw [if_pos hs]
    congr 1
    rw [← List.cons_append, List.drop_left]
    exact replaceAllAux_fuel (c :: ps) rep hp f f Z
      (by simp only [List.length_cons] at hf; omega) (le_refl _)

/-- Helper: `str.replace` on a text without any match is the identity. -/
theorem replaceAll_no_occ (pat rep t : Str) (h : ∀ i, ¬ occursAt pat t i) :
    replaceAll pat rep t = t :=
  replaceAllAux_no_occ pat rep t.length t (le_refl _) h

/-- Helper: `str.replace` skips over a match-free left part. -/
theorem replaceAll_prepend (pat rep X Y : Str) (hp : pat ≠ [])
    (hX : ∀ i, i < X.length → ¬ occursAt pat (X ++ Y) i) :
    replaceAll pat rep (X ++ Y) = X ++ replaceAll pat rep Y := by
  unfold replaceAll
  rw [List.length_append]
  rw [replaceAllAux_prepend pat rep hp X Y (X.length + Y.length) (le_refl _) hX]
  have h2 : X.length + Y.length - X.length = Y.length := by omega
  rw [h2]

/-- Helper: `str.replace` on a text with exactly one occurrence of the
pattern replaces exactly it. -/
theorem replaceAll_single (pat rep X Z : Str) (hp : pat ≠ [])
    (hX : ∀ i, i < X.length → ¬ occursAt pat (X ++ pat ++ Z) i)
    (hZ : ∀ i, ¬ occursAt pat Z i) :
    replaceAll pat rep (X ++ pat ++ Z) = X ++ rep ++ Z := by
  have hX2 : ∀ i, i < X.length → ¬ occursAt pat (X ++ (pat ++ Z)) i := by
    intro i hi
    have h0 := hX i hi
    rwa [List.append_assoc] at h0
  rw [List.append_assoc, replaceAll_prepend pat rep X (pat ++ Z) hp hX2]
  unfold replaceAll
  rw [replaceAllAux_at_match pat rep hp Z (pat ++ Z).length (by simp [List.length_append])]
  rw [replaceAllAux_no_occ pat rep Z.length Z (le_refl _) hZ, List.append_assoc]

/-- Helper: an occurrence of a placeholder in `placeholder j ++ R` is either
at position 0 (forcing equal numbers) or entirely within `R`. -/
theorem ph_append_occ {j k : Nat} (R : Str) (i : Nat)
    (h : occursAt (placeholder k) (placeholder j ++ R) i) :
    (i = 0 ∧ k = j) ∨
      ((placeholder j).length ≤ i ∧
        occursAt (placeholder k) R (i - (placeholder j).length)) := by
  by_cases hi0 : i = 0
  · subst hi0
    left
    refine ⟨rfl, startsWith_ph_ph R ?_⟩
    unfold occursAt at h
    rwa [List.drop_zero] at h
  by_cases hilen : (placeholder j).length ≤ i
  · right
    exact ⟨hilen, (occursAt_append_right _ R i hilen).mp h⟩
  · exfalso
    unfold occursAt at h
    have hi1 : 1 ≤ i := by omega
    have hplen : (placeholder j).length = ('v' :: natDigits j ++ [rbrace]).length + 1 := by
      simp [placeholder]
    have htail : i - 1 < ('v' :: natDigits j ++ [rbrace]).length := by omega
    have hdrop : (placeholder j ++ R).drop i
        = ('v' :: natDigits j ++ [rbrace]).drop (i - 1) ++ R := by
      obtain ⟨i', rfl⟩ : ∃ i', i = i' + 1 := ⟨i - 1, by omega⟩
      have h1 : placeholder j ++ R = lbrace :: (('v' :: natDigits j ++ [rbrace]) ++ R) := by
        simp [placeholder]
      rw [h1, List.drop_succ_cons, List.drop_append_of_le_length (by omega)]
      simp
    rw [hdrop] at h
    cases hpd : ('v' :: natDigits j ++ [rbrace]).drop (i - 1) with
    | nil =>
      have hlen2 := congrArg List.length hpd
      simp only [List.length_drop, List.length_nil] at hlen2
      omega
    | cons c rest =>
      have hcmem : c ∈ ('v' :: natDigits j ++ [rbrace]) := by
        have hmem : c ∈ ('v' :: natDigits j ++ [rbrace]).drop (i - 1) := by
          rw [hpd]; simp
        exact List.mem_of_mem_drop hmem
      have hcne := placeholder_tail_chars j c hcmem
      rw [hpd] at h
      have hhead := startsWith_head (c := lbrace) (by simp [placeholder]) h
      simp only [List.cons_append, List.head?_cons, Option.some.injEq] at hhead
      exact hcne hhead

/-- Helper: a placeholder whose number labels no open span does not occur in
the rendered text (given it does not occur in the source text). -/
theorem no_occ_renderOpen (t : Str) (k : Nat) (Hk : ¬ occursIn (placeholder k) t) :
    ∀ (nl : List ((Nat × Nat) × Nat)) (prev : Nat),
      (∀ x ∈ nl, x.2 ≠ k) →
      ∀ i, ¬ occursAt (placeholder k) (renderOpen t prev nl) i := by
  intro nl
  induction nl with
  | nil =>
    intro prev _ i hocc
    simp only [renderOpen] at hocc
    exact Hk ⟨prev + i, occursAt_drop hocc⟩
  | cons x rest ih =>
    obtain ⟨⟨s, e⟩, j⟩ := x
    intro prev hnum i hocc
    simp only [renderOpen] at hocc
    rw [List.append_assoc] at hocc
    by_cases hi : i < ((t.drop prev).take (s - prev)).length
    · exact not_occursAt_slice_concat Hk prev (s - prev)
        (placeholder j ++ renderOpen t e rest)
        (Or.inr (by simp [placeholder])) i hi hocc
    · push_neg at hi
      rw [occursAt_append_right _ _ i hi] at hocc
      rcases ph_append_occ _ _ hocc with ⟨_, hkj⟩ | ⟨_, hocc2⟩
      · exact hnum (((s, e), j)) (by simp) hkj.symm
      · exact ih e (fun y hy => hnum y (by simp [hy])) _ hocc2

/-- Helper: a chained list stays chained under a smaller lower bound. -/
theorem chained_mono : ∀ (l : List (Nat × Nat)) (a b : Nat),
    Chained a l → b ≤ a → Chained b l := by
  intro l a b h hba
  cases l with
  | nil => trivial
  | cons x rest =>
    obtain ⟨s, e⟩ := x
    obtain ⟨h1, h2, h3⟩ := h
    exact ⟨by omega, h2, h3⟩

/-- Helper: removing a middle span keeps a chained list chained. -/
theorem chained_drop_mid : ∀ (A : List (Nat × Nat)) (s e : Nat) (B : List (Nat × Nat))
    (lo : Nat), Chained lo (A ++ (s, e) :: B) → Chained lo (A ++ B) := by
  intro A
  induction A with
  | nil =>
    intro s e B lo h
    obtain ⟨h1, h2, h3⟩ := h
    exact chained_mono B e lo h3 (by omega)
  | cons x A' ih =>
    obtain ⟨s₁, e₁⟩ := x
    intro s e B lo h
    obtain ⟨h1, h2, h3⟩ := h
    exact ⟨h1, h2, ih s e B e₁ h3⟩

/-- Helper: numbering spans does not change the spans. -/
theorem numberSpans_map_fst : ∀ (l : List (Nat × Nat)) (idx : Nat),
    (numberSpans l idx).map Prod.fst = l := by
  intro l
  induction l with
  | nil => intro idx; rfl
  | cons sp rest ih =>
    intro idx
    simp only [numberSpans, List.map_cons, ih]

/-- Helper: the numbers assigned by `numberSpans` lie in `[idx, idx + n)`. -/
theorem numberSpans_snd_mem : ∀ (l : List (Nat × Nat)) (idx : Nat) (x : (Nat × Nat) × Nat),
    x ∈ numberSpans l idx → idx ≤ x.2 ∧ x.2 < idx + l.length := by
  intro l
  induction l with
  | nil => intro idx x hx; simp [numberSpans] at hx
  | cons sp rest ih =>
    intro idx x hx
    simp only [numberSpans, List.mem_cons] at hx
    rcases hx with hx | hx
    · subst hx
      refine ⟨Nat.le_add_right _ _, ?_⟩
      show idx + rest.length < idx + (sp :: rest).length
      simp only [List.length_cons]
      omega
    · have h2 := ih idx x hx
      simp only [List.length_cons]
      omega

/-- Helper: the numbers assigned by `numberSpans` are pairwise distinct. -/
theorem numberSpans_snd_nodup : ∀ (l : List (Nat × Nat)) (idx : Nat),
    ((numberSpans l idx).map (fun x => x.2)).Nodup := by
  intro l
  induction l with
  | nil => intro idx; simp [numberSpans]
  | cons sp rest ih =>
    intro idx
    simp only [numberSpans, List.map_cons, List.nodup_cons]
    refine ⟨?_, ih idx⟩
    intro hmem
    simp only [List.mem_map] at hmem
    obtain ⟨x, hx, hx2⟩ := hmem
    have h2 := numberSpans_snd_mem rest idx x hx
    omega

/-- Helper: removing a middle element of a duplicate-free list. -/
theorem nodup_mid {α : Type} {as bs : List α} {b : α} (h : (as ++ b :: bs).Nodup) :
    (as ++ bs).Nodup ∧ b ∉ as ∧ b ∉ bs := by
  rw [List.nodup_append] at h
  obtain ⟨h1, h2, h3⟩ := h
  rw [List.nodup_cons] at h2
  refine ⟨?_, ?_, h2.1⟩
  · rw [List.nodup_append]
    exact ⟨h1, h2.2, fun a ha hb => h3 ha (List.mem_cons_of_mem _ hb)⟩
  · intro hbas
    exact h3 hbas (List.mem_cons_self _ _)

/-- Helper: entry `j` of the mapping built from a span list: the placeholder
numbered `idx + j` paired with the slice of the `j`-th span. -/
theorem mapOfRev_get (t : Str) :
    ∀ (l : List (Nat × Nat)) (idx j : Nat) (sp : Nat × Nat), l.get? j = some sp →
      (mapOfRev t l idx).get? j
        = some (placeholder (idx + j), (t.drop sp.1).take (sp.2 - sp.1)) := by
  intro l
  induction l with
  | nil => intro idx j sp h; simp at h
  | cons x rest ih =>
    obtain ⟨s, e⟩ := x
    intro idx j sp h
    cases j with
    | zero =>
      rw [List.get?_cons_zero] at h
      injection h with h
      subst h
      simp [mapOfRev]
    | succ j' =>
      rw [List.get?_cons_succ] at h
      simp only [mapOfRev, List.get?_cons_succ]
      rw [ih (idx + 1) j' sp h]
      have h2 : idx + 1 + j' = idx + (j' + 1) := by omega
      rw [h2]

/-- Helper: entry `i` of the numbered span list: the `i`-th span paired with
the number `idx + n - 1 - i` (numbers descend left to right). -/
theorem numberSpans_get :
    ∀ (l : List (Nat × Nat)) (idx i : Nat) (sp : Nat × Nat), l.get? i = some sp →
      (numberSpans l idx).get? i = some (sp, idx + l.length - 1 - i) := by
  intro l
  induction l with
  | nil => intro idx i sp h; simp at h
  | cons x rest ih =>
    intro idx i sp h
    cases i with
    | zero =>
      rw [List.get?_cons_zero] at h
      injection h with h
      subst h
      simp only [numberSpans, List.get?_cons_zero, List.length_cons]
      have h2 : idx + (rest.length + 1) - 1 - 0 = idx + rest.length := by omega
      rw [h2]
    | succ i' =>
      rw [List.get?_cons_succ] at h
      simp only [numberSpans, List.get?_cons_succ, List.length_cons]
      rw [ih idx i' sp h]
      have h2 : idx + rest.length - 1 - i' = idx + (rest.length + 1) - 1 - (i' + 1) := by
        omega
      rw [h2]

/-- Helper: a text without a left brace contains no placeholder. -/
theorem no_ph_of_no_lbrace (t : Str) (k : Nat) (h : lbrace ∉ t) :
    ¬ occursIn (placeholder k) t := by
  intro hocc
  obtain ⟨i, hi⟩ := hocc
  unfold occursAt at hi
  have hhead := startsWith_head (c := lbrace) (by simp [placeholder]) hi
  have hmem : lbrace ∈ t.drop i := by
    cases hd : t.drop i with
    | nil => rw [hd] at hhead; simp at hhead
    | cons c r =>
      rw [hd] at hhead
      simp only [List.head?_cons, Option.some.injEq] at hhead
      subst hhead
      exact List.mem_cons_self _ _
  exact h (List.mem_of_mem_drop hmem)

/-- Helper: replacing one placeholder in the rendered text closes exactly
its span, merging the surrounding slices. -/
theorem replace_hole (t : Str) :
    ∀ (A : List ((Nat × Nat) × Nat)) (s e k : Nat) (B : List ((Nat × Nat) × Nat))
      (prev : Nat),
      Chained prev ((A ++ ((s, e), k) :: B).map Prod.fst) →
      (∀ y ∈ A, y.2 ≠ k) → (∀ y ∈ B, y.2 ≠ k) →
      ¬ occursIn (placeholder k) t →
      replaceAll (placeholder k) ((t.drop s).take (e - s))
          (renderOpen t prev (A ++ ((s, e), k) :: B))
        = renderOpen t prev (A ++ B) := by
  intro A
  induction A with
  | nil =>
    intro s e k B prev hch hA hB Hk
    simp only [List.nil_append, List.map_cons] at hch ⊢
    obtain ⟨h1, h2, h3⟩ := hch
    simp only [renderOpen]
    have hXocc : ∀ i, i < ((t.drop prev).take (s - prev)).length →
        ¬ occursAt (placeholder k)
          ((t.drop prev).take (s - prev) ++ placeholder k ++ renderOpen t e B) i := by
      intro i hi
      have h0 := not_occursAt_slice_concat Hk prev (s - prev)
        (placeholder k ++ renderOpen t e B) (Or.inr (by simp [placeholder])) i hi
      rwa [← List.append_assoc] at h0
    have hZocc : ∀ i, ¬ occursAt (placeholder k) (renderOpen t e B) i :=
      no_occ_renderOpen t k Hk B e hB
    rw [replaceAll_single (placeholder k) ((t.drop s).take (e - s))
      ((t.drop prev).take (s - prev)) (renderOpen t e B)
      (by simp [placeholder]) hXocc hZocc]
    cases B with
    | nil =>
      simp only [renderOpen]
      rw [List.append_assoc, slice_prepend t s e (by omega), slice_prepend t prev s h1]
    | cons y B' =>
      obtain ⟨⟨s', e'⟩, k'⟩ := y
      simp only [List.map_cons] at h3
      obtain ⟨h4, h5, h6⟩ := h3
      simp only [renderOpen]
      have m1 := slice_merge t prev s e h1 (by omega)
      have m2 := slice_merge t prev e s' (by omega) h4
      simp only [← List.append_assoc]
      rw [m1, m2]
  | cons x A' ih =>
    obtain ⟨⟨s₁, e₁⟩, j⟩ := x
    intro s e k B prev hch hA hB Hk
    simp only [List.cons_append, List.map_cons] at hch ⊢
    obtain ⟨h1, h2, h3⟩ := hch
    simp only [renderOpen]
    have hj : j ≠ k := hA (((s₁, e₁), j)) (by simp)
    have hA' : ∀ y ∈ A', y.2 ≠ k := fun y hy => hA y (by simp [hy])
    have hXocc : ∀ i, i < ((t.drop prev).take (s₁ - prev) ++ placeholder j).length →
        ¬ occursAt (placeholder k)
          (((t.drop prev).take (s₁ - prev) ++ placeholder j)
            ++ renderOpen t e₁ (A' ++ ((s, e), k) :: B)) i := by
      intro i hi hocc
      by_cases hi2 : i < ((t.drop prev).take (s₁ - prev)).length
      · refine not_occursAt_slice_concat Hk prev (s₁ - prev)
          (placeholder j ++ renderOpen t e₁ (A' ++ ((s, e), k) :: B))
          (Or.inr (by simp [placeholder])) i hi2 ?_
        rwa [List.append_assoc] at hocc
      · push_neg at hi2
        rw [List.append_assoc, occursAt_append_right _ _ i hi2] at hocc
        rcases ph_append_occ _ _ hocc with ⟨_, hkj⟩ | ⟨hge, _⟩
        · exact hj hkj.symm
        · rw [List.length_append] at hi
          omega
    rw [replaceAll_prepend (placeholder k) ((t.drop s).take (e - s))
      ((t.drop prev).take (s₁ - prev) ++ placeholder j)
      (renderOpen t e₁ (A' ++ ((s, e), k) :: B)) (by simp [placeholder]) hXocc]
    rw [ih s e k B e₁ h3 hA' hB Hk]

/-- Helper: the mapping built over the reversed span list is the reversed
numbered span list, with each span sent to its placeholder and slice. -/
theorem mapOfRev_eq (t : Str) :
    ∀ (l : List (Nat × Nat)) (idx : Nat),
      mapOfRev t l.reverse idx
        = ((numberSpans l idx).reverse).map
            (fun sp => (placeholder sp.2, (t.drop sp.1.1).take (sp.1.2 - sp.1.1))) := by
  intro l
  induction l using List.reverseRecOn with
  | nil => intro idx; rfl
  | append_singleton l' x ih =>
    obtain ⟨s, e⟩ := x
    intro idx
    rw [List.reverse_append, List.reverse_singleton, List.singleton_append]
    simp only [mapOfRev]
    rw [ih (idx + 1), numberSpans_append, List.reverse_append,
      List.reverse_singleton, List.singleton_append, List.map_cons]

/-- Helper: folding the placeholder replacements over the rendered text, in
any order of the mapping entries, restores the suffix of the source text. -/
theorem fold_replace (t : Str) (H : ∀ j, 1 ≤ j → ¬ occursIn (placeholder j) t) :
    ∀ (ms : List (Str × Str)) (nl : List ((Nat × Nat) × Nat)) (prev : Nat),
      Chained prev (nl.map Prod.fst) →
      (nl.map (fun x => x.2)).Nodup →
      (∀ x ∈ nl, 1 ≤ x.2) →
      List.Perm ms
        (nl.map (fun sp => (placeholder sp.2, (t.drop sp.1.1).take (sp.1.2 - sp.1.1)))) →
      ms.foldl (fun out kv => replaceAll kv.1 kv.2 out) (renderOpen t prev nl)
        = t.drop prev := by
  intro ms
  induction ms with
  | nil =>
    intro nl prev hch hnd hpos hperm
    have h0 : nl.map
        (fun sp => (placeholder sp.2, (t.drop sp.1.1).take (sp.1.2 - sp.1.1))) = [] :=
      hperm.symm.eq_nil
    have h1 : nl = [] := List.map_eq_nil_iff.mp h0
    subst h1
    rfl
  | cons kv ms' ih =>
    intro nl prev hch hnd hpos hperm
    have hkv : kv ∈ nl.map
        (fun sp => (placeholder sp.2, (t.drop sp.1.1).take (sp.1.2 - sp.1.1))) :=
      hperm.subset (List.mem_cons_self _ _)
    obtain ⟨x, hxnl, hgx⟩ := List.mem_map.mp hkv
    obtain ⟨A, B, hAB⟩ := List.append_of_mem hxnl
    subst hAB
    obtain ⟨⟨s, e⟩, k⟩ := x
    have hgx2 : kv = (placeholder k, (t.drop s).take (e - s)) := by rw [← hgx]
    subst hgx2
    have hkpos : 1 ≤ k := hpos (((s, e), k)) hxnl
    rw [List.map_append, List.map_cons] at hnd
    obtain ⟨hnd2, hkA, hkB⟩ := nodup_mid hnd
    have hyA : ∀ y ∈ A, y.2 ≠ k := by
      intro y hy hyk
      refine hkA ?_
      rw [← hyk]
      exact List.mem_map.mpr ⟨y, hy, rfl⟩
    have hyB : ∀ y ∈ B, y.2 ≠ k := by
      intro y hy hyk
      refine hkB ?_
      rw [← hyk]
      exact List.mem_map.mpr ⟨y, hy, rfl⟩
    simp only [List.foldl_cons]
    show List.foldl (fun out kv => replaceAll kv.1 kv.2 out)
      (replaceAll (placeholder k) ((t.drop s).take (e - s))
        (renderOpen t prev (A ++ ((s, e), k) :: B))) ms' = t.drop prev
    rw [replace_hole t A s e k B prev hch hyA hyB (H k hkpos)]
    have hch2 : Chained prev ((A ++ B).map Prod.fst) := by
      rw [List.map_append]
      rw [List.map_append, List.map_cons] at hch
      exact chained_drop_mid (A.map Prod.fst) s e (B.map Prod.fst) prev hch
    have hnd3 : ((A ++ B).map (fun x => x.2)).Nodup := by
      rw [List.map_append]
      exact hnd2
    have hpos2 : ∀ y ∈ A ++ B, 1 ≤ y.2 := by
      intro y hy
      rcases List.mem_append.mp hy with h | h
      · exact hpos y (List.mem_append_left _ h)
      · exact hpos y (List.mem_append_right _ (List.mem_cons_of_mem _ h))
    have hperm2 : List.Perm ms'
        ((A ++ B).map (fun sp => (placeholder sp.2, (t.drop sp.1.1).take (sp.1.2 - sp.1.1)))) := by
      rw [List.map_append]
      rw [List.map_append, List.map_cons] at hperm
      exact (hperm.trans List.perm_middle).cons_inv
    exact ih (A ++ B) prev hch2 hnd3 hpos2 hperm2

/-- C1: For every input text containing no placeholder-shaped substring
`\x7bvN\x7d`, `unprotect_math` applied to the protected text and mapping
produced by `protect_math` returns exactly the input; in particular, for
input with no math spans, `protect_math` returns the text unchanged with an
empty mapping. (The hypothesis is necessary: the round-trip fails on texts
already containing a placeholder, see the counterexample.) -/
theorem protect_unprotect_roundtrip (t : Str)
    (H : ∀ k, 1 ≤ k → ¬ occursIn (placeholder k) t) :
    unprotect_math (protect_math t).1 (protect_math t).2 = t ∧
    (protectSpans t = [] → protect_math t = (t, [])) := by
  constructor
  · by_cases hne : protectSpans t = []
    · have hpm : protect_math t = (t, []) := by
        unfold protect_math
        rw [if_pos (by rw [hne]; rfl)]
      rw [hpm]
      rfl
    · rw [protect_math_spec t hne]
      unfold unprotect_math
      have hperm : List.Perm
          (List.insertionSort (fun a b : Str × Str => b.1.length ≤ a.1.length)
            (mapOfRev t (protectSpans t).reverse 1))
          ((numberSpans (protectSpans t) 1).map
            (fun sp => (placeholder sp.2, (t.drop sp.1.1).take (sp.1.2 - sp.1.1)))) := by
        refine (List.perm_insertionSort _ _).trans ?_
        rw [mapOfRev_eq, List.map_reverse]
        exact List.reverse_perm _
      obtain ⟨hch, hle⟩ := protectSpans_chained t
      have h0 := fold_replace t H
        (List.insertionSort (fun a b : Str × Str => b.1.length ≤ a.1.length)
          (mapOfRev t (protectSpans t).reverse 1))
        (numberSpans (protectSpans t) 1) 0
        (by rw [numberSpans_map_fst]; exact hch)
        (numberSpans_snd_nodup _ _)
        (fun x hx => (numberSpans_snd_mem _ _ x hx).1)
        hperm
      rw [List.drop_zero] at h0
      exact h0
  · intro hne
    unfold protect_math
    rw [if_pos (by rw [hne]; rfl)]

/-- Witness for C1: a concrete math-bearing text without braces
round-trips. -/
theorem protect_unprotect_roundtrip_witness :
    unprotect_math (protect_math ['a', ' ', '$', 'x', '$', ' ', 'b']).1
        (protect_math ['a', ' ', '$', 'x', '$', ' ', 'b']).2
      = ['a', ' ', '$', 'x', '$', ' ', 'b'] :=
  (protect_unprotect_roundtrip ['a', ' ', '$', 'x', '$', ' ', 'b']
    (fun k _ => no_ph_of_no_lbrace ['a', ' ', '$', 'x', '$', ' ', 'b'] k (by decide))).1

/-- Counterexample for C1 as stated: for the input `\x7bv1\x7d$x$` the
round-trip returns `$x$$x$`, not the input, because the pre-existing
`\x7bv1\x7d` is also replaced during restoration. -/
theorem protect_roundtrip_counterexample :
    unprotect_math
        (protect_math [lbrace, 'v', '1', rbrace, '$', 'x', '$']).1
        (protect_math [lbrace, 'v', '1', rbrace, '$', 'x', '$']).2
      = ['$', 'x', '$', '$', 'x', '$'] ∧
    unprotect_math
        (protect_math [lbrace, 'v', '1', rbrace, '$', 'x', '$']).1
        (protect_math [lbrace, 'v', '1', rbrace, '$', 'x', '$']).2
      ≠ [lbrace, 'v', '1', rbrace, '$', 'x', '$'] := by
  constructor
  · decide
  · decide

/-- C9 (corrected): when `protect_math` selects `n` non-overlapping spans,
the numbering is assigned right-to-left: the `i`-th span (0-based, in
ascending offset order) receives the placeholder numbered `n - i` (so the
leftmost span gets `\x7bvn\x7d` and the rightmost gets `\x7bv1\x7d`), and
the `j`-th mapping entry (0-based, insertion order) sends the placeholder
numbered `j + 1` to the original text of the `j`-th span counted from the
right. -/
theorem protect_numbering (t : Str) (hne : protectSpans t ≠ []) :
    (protect_math t).1 = renderOpen t 0 (numberSpans (protectSpans t) 1) ∧
    (∀ (i : Nat) (sp : Nat × Nat), (protectSpans t).get? i = some sp →
      (numberSpans (protectSpans t) 1).get? i
        = some (sp, (protectSpans t).length - i)) ∧
    (∀ (j : Nat) (sp : Nat × Nat), (protectSpans t).reverse.get? j = some sp →
      (protect_math t).2.get? j
        = some (placeholder (j + 1), (t.drop sp.1).take (sp.2 - sp.1))) := by
  refine ⟨?_, ?_, ?_⟩
  · rw [protect_math_spec t hne]
  · intro i sp h
    rw [numberSpans_get (protectSpans t) 1 i sp h]
    have h2 : 1 + (protectSpans t).length - 1 - i = (protectSpans t).length - i := by
      omega
    rw [h2]
  · intro j sp h
    have hmap : (protect_math t).2 = mapOfRev t (protectSpans t).reverse 1 := by
      rw [protect_math_spec t hne]
    rw [hmap, mapOfRev_get t (protectSpans t).reverse 1 j sp h]
    have h2 : 1 + j = j + 1 := by omega
    rw [h2]

/-- Witness for C9: a concrete one-span text. -/
theorem protect_numbering_witness :
    protectSpans ['$', 'a', '$'] ≠ [] ∧
    (protect_math ['$', 'a', '$']).1
      = renderOpen ['$', 'a', '$'] 0 (numberSpans (protectSpans ['$', 'a', '$']) 1) :=
  ⟨by decide, (protect_numbering ['$', 'a', '$'] (by decide)).1⟩

/-- Counterexample for C9 as stated: on `$a$ $b$` the first span in scan
order is replaced by `\x7bv2\x7d`, not `\x7bv1\x7d`, and the first mapping
entry sends `\x7bv1\x7d` to `$b$`, the last span, not to the first span
`$a$`. -/
theorem protect_numbering_counterexample :
    protect_math ['$', 'a', '$', ' ', '$', 'b', '$']
      = ([lbrace, 'v', '2', rbrace, ' ', lbrace, 'v', '1', rbrace],
         [([lbrace, 'v', '1', rbrace], ['$', 'b', '$']),
          ([lbrace, 'v', '2', rbrace], ['$', 'a', '$'])]) ∧
    (protect_math ['$', 'a', '$', ' ', '$', 'b', '$']).2.get? 0
      ≠ some (placeholder 1, ['$', 'a', '$']) := by
  constructor
  · decide
  · decide
